import Mathlib

/-!
Verification development for the JavaMaster AI repository: a React quiz
application that generates Java exercises, simulates code execution and
grades submissions through the Gemini API.  The definitions below are a
shallow embedding of the TypeScript sources:

* `cleanCode` and its five regex passes come from the Gemini service
  (`cleanCode` in the service file);
* the three API operations `generateQuestion`, `simulateJavaCode`,
  `gradeExam` with their prompts, schemas and error behaviour;
* the application state and event handlers from the App component;
* the editor decoration scan (`updateDecorations`) from `Editor.tsx`.

JavaScript strings are modelled as `List Char`; the regex passes are
implemented character by character with the exact leftmost-match,
greedy-with-backtracking semantics of the JS regexes involved.
-/

namespace JavaMaster

/-! ## Character classes (JS regex semantics)

`isNL` is the character class `[\r\n]`, `isLineTerm` is the set of
ECMAScript line terminators (relevant for the `m` flag anchors and for
`.`), and `isWs` is the ECMAScript `\s` class (which is also the set
trimmed by `String.prototype.trim`). -/

def isNL (c : Char) : Bool := c == '\r' || c == '\n'

def isLineTerm (c : Char) : Bool :=
  c == '\n' || c == '\r' || c == '\u2028' || c == '\u2029'

def isWs (c : Char) : Bool :=
  c == ' ' || c == '\t' || c == '\n' || c == '\r' ||
  c == '\x0b' || c == '\x0c' || c == '\u00a0' || c == '\u1680' ||
  (0x2000 <= c.toNat && c.toNat <= 0x200a) ||
  c == '\u2028' || c == '\u2029' || c == '\u202f' || c == '\u205f' ||
  c == '\u3000' || c == '\ufeff'

/-! ## Pass 1: `.replace(/\/\/.*$/gm, '')`

Remove, on every line, everything from the first `//` to the end of the
line (`.` and `$` stop at line terminators).  A boolean state records
whether we are currently discarding the rest of a line. -/

def lineGo : Nat → Bool → List Char → List Char
  | 0, _, l => l
  | _ + 1, _, [] => []
  | n + 1, true, c :: r => if isLineTerm c then c :: lineGo n false r else lineGo n true r
  | n + 1, false, c :: r =>
    if c = '/' ∧ r.head? = some '/' then lineGo n true r.tail
    else c :: lineGo n false r

def stripLineComments (l : List Char) : List Char := lineGo l.length false l

/-! ## Pass 2: `.replace(/\/\*[\s\S]*?\*\//g, '')`

Remove every block comment: at each `/*`, the non-greedy body runs to the
first following `*/` if one exists; if none exists the regex does not
match and scanning advances by one character.  The recursion is not
structural (after a removed block we continue at an arbitrary suffix), so
it is written with explicit fuel; `stripBlockComments` supplies enough
fuel and fuel-irrelevance is proved below. -/

def findClose : List Char → Option (List Char)
  | [] => none
  | c :: r => if c = '*' ∧ r.head? = some '/' then some r.tail else findClose r

def blockGo : Nat → List Char → List Char
  | 0, l => l
  | _ + 1, [] => []
  | n + 1, c :: rest =>
    if c = '/' ∧ rest.head? = some '*' then
      match findClose rest.tail with
      | some rest' => blockGo n rest'
      | none => c :: blockGo n rest
    else c :: blockGo n rest

def stripBlockComments (l : List Char) : List Char := blockGo l.length l

/-! ## Pass 3: `.replace(/^\s*[\r\n]/gm, '\n')`

At each position where `^` matches (start of string or right after a line
terminator), greedy `\s*` followed by `[\r\n]` consumes the maximal
leading whitespace run up to and including its last `\r`/`\n` (if the run
contains one); the whole match is replaced by a single `'\n'` and
scanning resumes after the match.  `matchBlank l` returns the suffix
after such a match, or `none` when the regex does not match at this
position. -/

def matchBlank : List Char → Option (List Char)
  | [] => none
  | c :: rest =>
    if isWs c then
      match matchBlank rest with
      | some rest' => some rest'
      | none => if isNL c then some rest else none
    else none

def blankGo : Nat → Bool → List Char → List Char
  | 0, _, l => l
  | _ + 1, _, [] => []
  | n + 1, false, c :: rest => c :: blankGo n (isLineTerm c) rest
  | n + 1, true, c :: rest =>
    match matchBlank (c :: rest) with
    | some r => '\n' :: blankGo n true r
    | none => c :: blankGo n (isLineTerm c) rest

def squeezeBlankLines (l : List Char) : List Char := blankGo l.length true l

/-! ## Pass 4: `.replace(/\n{3,}/g, '\n\n')`

Each maximal run of three or more `'\n'` is replaced by exactly two. -/

def collapseGo : Nat → List Char → List Char
  | 0, l => l
  | _ + 1, [] => []
  | n + 1, c :: rest =>
    if c = '\n' ∧ rest.head? = some '\n' ∧ rest.tail.head? = some '\n' then
      '\n' :: '\n' :: collapseGo n (rest.dropWhile (· = '\n'))
    else c :: collapseGo n rest

def collapseNewlines (l : List Char) : List Char := collapseGo l.length l

/-! ## Pass 5: `.trim()` -/

def dropTrail (l : List Char) : List Char := (l.reverse.dropWhile isWs).reverse

def trimList (l : List Char) : List Char := dropTrail (l.dropWhile isWs)

/-! ## `cleanCode` -/

def cleanCodeL (l : List Char) : List Char :=
  trimList (collapseNewlines (squeezeBlankLines (stripBlockComments (stripLineComments l))))

def cleanCode (s : String) : String := ⟨cleanCodeL s.data⟩

/-! ## Substring patterns

Boolean occurrence checks used to characterise the fixed points of the
five passes: `hasDSlash l` holds when `l` contains two adjacent slashes,
`hasSS l` when it contains `*/`, `hasBlock l` when it contains a complete
block comment (a `/*` with a `*/` strictly after it), `hasTriple l` when
it contains three consecutive `'\n'`, and `runNoNL l` when the maximal
leading whitespace run of `l` contains no `\r`/`\n`. -/

def hasDSlash : List Char → Bool
  | [] => false
  | c :: r => (decide (c = '/' ∧ r.head? = some '/')) || hasDSlash r

def hasSS : List Char → Bool
  | [] => false
  | c :: r => (decide (c = '*' ∧ r.head? = some '/')) || hasSS r

def hasBlock : List Char → Bool
  | [] => false
  | c :: r => (decide (c = '/' ∧ r.head? = some '*') && hasSS r.tail) || hasBlock r

def hasTriple : List Char → Bool
  | [] => false
  | c :: r => (decide (c = '\n' ∧ r.head? = some '\n' ∧ r.tail.head? = some '\n')) || hasTriple r

def runNoNL : List Char → Bool
  | [] => true
  | c :: r => if isWs c then !isNL c && runNoNL r else true

def blankRun (b : Bool) (l : List Char) : List Char := blankGo l.length b l

def lineRun (b : Bool) (l : List Char) : List Char := lineGo l.length b l

/-! ## Fixed points of pass 3

`okBlank b l` mirrors the scan of `blankRun b l` and checks that every
match the scan would perform is the trivial replacement of a single
`'\n'` by `'\n'`; it therefore characterises the strings that pass 3
leaves unchanged. -/

def okBlankF : Nat → Bool → List Char → Bool
  | 0, _, _ => true
  | _ + 1, _, [] => true
  | n + 1, false, c :: rest => okBlankF n (isLineTerm c) rest
  | n + 1, true, c :: rest =>
    match matchBlank (c :: rest) with
    | some r => decide (c = '\n') && decide (r = rest) && okBlankF n true rest
    | none => okBlankF n (isLineTerm c) rest

def okBlank (b : Bool) (l : List Char) : Bool := okBlankF l.length b l

/-! ## Whitespace reductions

`WsRed o i` relates an output `o` to an input `i` when `o` is obtained
from `i` by replacing nonempty whitespace blocks with single `'\n'`
characters.  Passes 3 and 4 produce such reductions, and substring
patterns built from non-whitespace characters are reflected from the
output back to the input. -/

inductive WsRed : List Char → List Char → Prop
  | nil : WsRed [] []
  | keep (c : Char) {o i : List Char} : WsRed o i → WsRed (c :: o) (c :: i)
  | subst {w : List Char} {o i : List Char} (hw : w ≠ []) (hws : ∀ c ∈ w, isWs c = true) :
      WsRed o i → WsRed ('\n' :: o) (w ++ i)

/-! ## Data model of the quiz service

Faithful embedding of `types.ts` and of the Gemini service module: the
enums and interfaces, the three response schemas, the exact prompt
strings, and the three API operations.  The network is modelled by a
`send` oracle mapping a request to the optional `response.text`, and
`JSON.parse` casts by `parse` oracles returning `none` exactly when the
text is not valid JSON for the expected shape. -/

inductive Difficulty
  | beginner
  | intermediate
  | advanced
deriving DecidableEq

def Difficulty.text : Difficulty → String
  | .beginner => "Beginner"
  | .intermediate => "Intermediate"
  | .advanced => "Advanced"

inductive TaskType
  | fillInBlank
  | bugFix
  | predictOutput
deriving DecidableEq

def TaskType.text : TaskType → String
  | .fillInBlank => "Fill in the Blank"
  | .bugFix => "Bug Fix"
  | .predictOutput => "Predict Output"

inductive Topic
  | variables
  | loops
  | arrays
  | oop
  | methods
  | exceptions
  | strings
  | fileIo
  | collections
deriving DecidableEq

def Topic.text : Topic → String
  | .variables => "Variables & Data Types"
  | .loops => "Loops (for, while)"
  | .arrays => "Arrays"
  | .oop => "OOP Concepts (Classes, Objects)"
  | .methods => "Methods & Recursion"
  | .exceptions => "Exception Handling"
  | .strings => "String Manipulation"
  | .fileIo => "File I/O"
  | .collections => "Java Collections Framework"

inductive Language
  | english
  | bulgarian
deriving DecidableEq

def Language.text : Language → String
  | .english => "English"
  | .bulgarian => "Bulgarian"

structure QuizConfig where
  difficulty : Difficulty
  topic : Topic
  taskType : TaskType
  language : Language
deriving DecidableEq

structure RawQuestion where
  title : String
  instructions : String
  codeSnippet : String
  solution : String
  explanation : String
deriving DecidableEq

structure GeneratedQuestion where
  title : String
  instructions : String
  codeSnippet : String
  initialCode : String
  solution : String
  explanation : String
deriving DecidableEq

structure SimulationResult where
  output : String
  isCorrect : Bool
  feedback : String
deriving DecidableEq

structure ExamResult where
  grade : Int
  label : String
  feedback : String
  styleScore : Int
  correctnessScore : Int
deriving DecidableEq

inductive SType
  | OBJECT
  | STRING
  | INTEGER
  | BOOLEAN
deriving DecidableEq

structure SchemaProp where
  name : String
  type : SType
  description : String
deriving DecidableEq

structure Schema where
  type : SType
  properties : List SchemaProp
  required : List String
deriving DecidableEq

def questionSchema : Schema :=
  { type := .OBJECT
    properties := [
      { name := "title", type := .STRING, description := "A short title for the problem" },
      { name := "instructions", type := .STRING, description := "Clear instructions for the student on what to do" },
      { name := "codeSnippet", type := .STRING, description := "The Java code following the formatting rules. For 'Fill in the Blank', use '____' (4 underscores) as placeholders. For 'Bug Fix', include logic or syntax errors." },
      { name := "solution", type := .STRING, description := "The fully correct, working Java code following the formatting rules." },
      { name := "explanation", type := .STRING, description := "A brief explanation of the concept being tested." }]
    required := ["title", "instructions", "codeSnippet", "solution", "explanation"] }

def simulationSchema : Schema :=
  { type := .OBJECT
    properties := [
      { name := "output", type := .STRING, description := "The simulated console output of the code. If there is a compilation error, put the error message here." },
      { name := "isCorrect", type := .BOOLEAN, description := "Whether the code solves the problem as requested." },
      { name := "feedback", type := .STRING, description := "Constructive feedback for the student, including notes on code style/formatting if applicable." }]
    required := ["output", "isCorrect", "feedback"] }

def examSchema : Schema :=
  { type := .OBJECT
    properties := [
      { name := "grade", type := .INTEGER, description := "The final grade on a scale of 2 to 6." },
      { name := "label", type := .STRING, description := "Label like 'Excellent', 'Good', 'Poor', etc." },
      { name := "feedback", type := .STRING, description := "Detailed justification for the grade." },
      { name := "styleScore", type := .INTEGER, description := "0-100 score for indentation and formatting." },
      { name := "correctnessScore", type := .INTEGER, description := "0-100 score for functionality." }]
    required := ["grade", "label", "feedback", "styleScore", "correctnessScore"] }

def seniorJavaDevPrompt : String :=
  "\nYou are an expert Senior Java Developer and Code Reviewer specialized in Clean Code and Code Style standards (Google Java Style Guide / Oracle Conventions).\n\nYour goal is to reformat the user's Java code to maximize readability, focusing specifically on **layout, indentation, and spacing**.\n\n**STRICT FORMATTING RULES:**\n1.  **Indentation:**\n    - Use exactly 4 SPACES for each level of indentation. Do NOT use tabs.\n    - Ensure nested blocks (if, for, while) are strictly indented relative to their parent.\n2.  **Brace Style (K&R / Egyptian):**\n    - Opening braces `\x7b` must be on the same line as the declaration.\n    - Closing braces `\x7d` must be on their own line, aligned with the start of the block statement.\n3.  **Line Wrapping & Length:**\n    - Hard limit: 120 characters per line.\n    - **Method Chaining (Streams/Builders):** Put each method call on a new line, starting with the dot `.`. Align the dots vertically.\n    - **Long Arguments:** If arguments exceed line length, break them into new lines, aligned with the opening parenthesis `(`.\n    - **Operators:** Break lines *before* binary operators (e.g., `+`, `&&`, `||`), not after.\n4.  **Whitespace (Breathing Room):**\n    - Add a single space around all operators (`=`, `+`, `==`, `->`).\n    - Add a single space after keywords like `if`, `for`, `while`, `catch` before the opening parenthesis.\n    - Add a single space after commas in lists.\n5.  **Vertical Spacing:**\n    - Insert exactly one blank line between methods.\n    - Insert one blank line inside methods to separate logical blocks (e.g., between variable declarations and logic).\n\n**FILL-IN-THE-BLANK SYSTEM INSTRUCTION:**\nYou are an intelligent coding assistant helping a user complete a Java \"fill-in-the-blanks\" exercise.\n\nThe user provided code snippet containing placeholders. These placeholders are marked in two ways:\n1. Text surrounded by underscores (e.g., `_int___`, `_a_`, `______`).\n2. Visual boxes indicating missing values.\n\n**YOUR PRIMARY GOAL:**\nWhen evaluating, generating, or correcting code involving blanks:\nWhen the user provides an input value for a blank, you must replace the **ENTIRE** placeholder with that value.\n\n**STRICT CONSTRAINTS FOR REPLACEMENT:**\n1.  **REMOVE ALL UNDERSCORES:** You must delete all leading and trailing underscores belonging to the placeholder.\n2.  **CLEAN OUTPUT:** The final result must contain ONLY the user's typed value in that position, with correct normal spacing around it. No remnant underscores should remain.\n\n**EXAMPLES:**\n* **Input Code:** `_int___ age = 25;` -> **User Types:** `int` -> **CORRECT Output:** `int age = 25;`\n* **Input Code:** `______ temperature = 36.6;` -> **User Types:** `double` -> **CORRECT Output:** `double temperature = 36.6;`\n"

def generateQuestionPrompt (config : QuizConfig) : String :=
  "\n    Create a Java programming task.\n    Difficulty: " ++ config.difficulty.text ++
  "\n    Topic: " ++ config.topic.text ++
  "\n    Type: " ++ config.taskType.text ++
  "\n    Language: " ++ config.language.text ++
  " (The instructions and title must be in this language).\n    \n    CRITICAL CODE GENERATION RULES:\n    1. The 'codeSnippet' must be PURE Java code.\n    2. STRICTLY FORBIDDEN: Do NOT include ANY comments (// or /* */). No instructions inside the code.\n    3. The code must be cleanly formatted according to the System Instructions (4 spaces, K&R braces).\n    4. If Type is 'Fill in the Blank', use exactly '____' (4 underscores).\n    5. If Type is 'Bug Fix', provide code with subtle errors but NO comments pointing them out.\n    \n    Ensure the code is self-contained (e.g., inside a Main class main method).\n  "

def simulateJavaCodePromptPre (originalQuestion : GeneratedQuestion) : String :=
  "\n    Act as a Java Compiler and Tutor.\n    \n    Task Instructions: " ++ originalQuestion.instructions ++
  "\n    Expected Solution Pattern: " ++ originalQuestion.solution ++
  "\n    \n    Student's Code:\n    ```java\n    "

def simulateJavaCodePromptPost (language : String) : String :=
  "\n    ```\n    \n    1. Simulate the execution of the Student's Code.\n    2. Determine if it successfully accomplishes the task.\n    3. Provide the output (stdout) or compiler errors.\n    4. Provide feedback in " ++ language ++
  ".\n       - Check if the code runs correctly.\n       - Also briefly check if the student maintained the Coding Style (indentation, spacing) defined in your System Instructions.\n  "

def simulateJavaCodePrompt (userCode : String) (originalQuestion : GeneratedQuestion)
    (language : String) : String :=
  simulateJavaCodePromptPre originalQuestion ++ userCode ++
    simulateJavaCodePromptPost language

def gradeExamPromptPre (originalQuestion : GeneratedQuestion) : String :=
  "\n    Act as a Strict Computer Science Teacher grading a student exam.\n    \n    GRADING SCALE (Bulgarian System):\n    6 = Excellent (Perfect correct code, perfect style, efficiency)\n    5 = Very Good (Correct code, minor style or efficiency issues)\n    4 = Good (Correct logic but messy, or took too many attempts)\n    3 = Fair (Partial solution or major errors)\n    2 = Poor (Does not run, logic failed completely)\n\n    Student Performance Data:\n    - Task: " ++ originalQuestion.instructions ++
  "\n    - Correct Solution: " ++ originalQuestion.solution ++
  "\n    - Student Code: ```java "

def gradeExamPromptPost (timeSpentSeconds attempts : Nat) (language : String) : String :=
  " ```\n    - Time Taken: " ++ toString timeSpentSeconds ++
  " seconds\n    - Attempts (Runs): " ++ toString attempts ++
  "\n    \n    Evaluation Criteria:\n    1. **Functionality (Highest Weight)**: Does it solve the problem?\n    2. **Formatting & Style**: Are indents correct (4 spaces)? Are brackets correct? Is it readable?\n    3. **Efficiency**: Did they take too long (>120s for simple tasks is slow)? Did they spam the \"Run\" button (>5 attempts is bad)?\n\n    Respond in " ++ language ++
  ".\n    Calculate 'grade' (integer 2-6).\n    Calculate 'styleScore' (0-100).\n    Calculate 'correctnessScore' (0-100).\n  "

def gradeExamPrompt (userCode : String) (originalQuestion : GeneratedQuestion)
    (timeSpentSeconds attempts : Nat) (language : String) : String :=
  gradeExamPromptPre originalQuestion ++ userCode ++
    gradeExamPromptPost timeSpentSeconds attempts language

structure GenCall where
  model : String
  contents : String
  systemInstruction : String
  responseMimeType : String
  responseSchema : Schema
  temperature : Rat
deriving DecidableEq

inductive GemError
  | apiKeyMissing
  | noResponse
  | jsonError
deriving DecidableEq

def GemError.message : GemError → Option String
  | .apiKeyMissing => some "API Key not found in environment"
  | .noResponse => some "No response from Gemini"
  | .jsonError => none

def getClient (apiKey : Option String) : Except GemError Unit :=
  match apiKey with
  | none => .error .apiKeyMissing
  | some k => if k = "" then .error .apiKeyMissing else .ok ()

def apiRequest (apiKey : Option String) (send : GenCall → Option String) (call : GenCall) :
    List GenCall × Except GemError String :=
  match getClient apiKey with
  | .error e => ([], .error e)
  | .ok _ =>
    match send call with
    | none => ([call], .error .noResponse)
    | some t => if t = "" then ([call], .error .noResponse) else ([call], .ok t)

def questionCall (config : QuizConfig) : GenCall :=
  { model := "gemini-2.5-flash"
    contents := generateQuestionPrompt config
    systemInstruction := seniorJavaDevPrompt
    responseMimeType := "application/json"
    responseSchema := questionSchema
    temperature := 7 / 10 }

def simulationCall (userCode : String) (originalQuestion : GeneratedQuestion)
    (language : String) : GenCall :=
  { model := "gemini-2.5-flash"
    contents := simulateJavaCodePrompt userCode originalQuestion language
    systemInstruction := seniorJavaDevPrompt
    responseMimeType := "application/json"
    responseSchema := simulationSchema
    temperature := 2 / 10 }

def examCall (userCode : String) (originalQuestion : GeneratedQuestion)
    (timeSpentSeconds attempts : Nat) (language : String) : GenCall :=
  { model := "gemini-2.5-flash"
    contents := gradeExamPrompt userCode originalQuestion timeSpentSeconds attempts language
    systemInstruction := seniorJavaDevPrompt
    responseMimeType := "application/json"
    responseSchema := examSchema
    temperature := 4 / 10 }

def generateQuestion (apiKey : Option String) (send : GenCall → Option String)
    (parseQuestion : String → Option RawQuestion) (config : QuizConfig) :
    List GenCall × Except GemError GeneratedQuestion :=
  match apiRequest apiKey send (questionCall config) with
  | (calls, .error e) => (calls, .error e)
  | (calls, .ok text) =>
    match parseQuestion text with
    | none => (calls, .error .jsonError)
    | some data =>
      (calls, .ok { title := data.title
                    instructions := data.instructions
                    codeSnippet := cleanCode data.codeSnippet
                    initialCode := cleanCode data.codeSnippet
                    solution := data.solution
                    explanation := data.explanation })

def simulateJavaCode (apiKey : Option String) (send : GenCall → Option String)
    (parseSimulation : String → Option SimulationResult) (userCode : String)
    (originalQuestion : GeneratedQuestion) (language : String) :
    List GenCall × Except GemError SimulationResult :=
  match apiRequest apiKey send (simulationCall userCode originalQuestion language) with
  | (calls, .error e) => (calls, .error e)
  | (calls, .ok text) =>
    match parseSimulation text with
    | none => (calls, .error .jsonError)
    | some r => (calls, .ok r)

def gradeExam (apiKey : Option String) (send : GenCall → Option String)
    (parseExam : String → Option ExamResult) (userCode : String)
    (originalQuestion : GeneratedQuestion) (timeSpentSeconds attempts : Nat)
    (language : String) : List GenCall × Except GemError ExamResult :=
  match apiRequest apiKey send (examCall userCode originalQuestion timeSpentSeconds attempts language) with
  | (calls, .error e) => (calls, .error e)
  | (calls, .ok text) =>
    match parseExam text with
    | none => (calls, .error .jsonError)
    | some r => (calls, .ok r)

/-! ## Application state and event handlers

Embedding of the App component: the `useState` hooks become fields of
`AppState`, each handler becomes a state transition (an async handler is
modelled by the full execution of one invocation, with the outcome of
its awaited API call supplied as an `Except` parameter), the timer
`useEffect` becomes `timerEffect` (its React cleanup first clears any
live interval, then the body runs; `Date.now()` is the `now` argument),
and each interval firing becomes `timerTick`.  `timerCount` counts the
live `setInterval` timers. -/

structure AppState where
  config : QuizConfig
  question : Option GeneratedQuestion
  userCode : String
  activeTab : String
  simulationResult : Option SimulationResult
  examResult : Option ExamResult
  startTime : Nat
  attempts : Nat
  elapsedTime : Nat
  isGenerating : Bool
  isSimulating : Bool
  isGrading : Bool
  error : Option String
  timerCount : Nat
deriving DecidableEq

def handleStartQuiz (outcome : Except String GeneratedQuestion) (s : AppState) : AppState :=
  let s1 := { s with isGenerating := true, error := none,
                     simulationResult := none, examResult := none }
  match outcome with
  | .ok q => { s1 with question := some q, userCode := q.codeSnippet,
                       activeTab := "Main.java", isGenerating := false }
  | .error m => { s1 with error := some m, isGenerating := false }

def handleRunCode (outcome : Except String SimulationResult) (s : AppState) : AppState :=
  match s.question with
  | none => s
  | some _ =>
    let s1 := { s with isSimulating := true, simulationResult := none,
                       attempts := s.attempts + 1 }
    match outcome with
    | .ok r => { s1 with simulationResult := some r, isSimulating := false }
    | .error m => { s1 with error := some m, isSimulating := false }

def handleFinishExam (outcome : Except String ExamResult) (s : AppState) : AppState :=
  match s.question with
  | none => s
  | some _ =>
    let s1 := { s with isGrading := true }
    match outcome with
    | .ok r => { s1 with examResult := some r, timerCount := 0, isGrading := false }
    | .error m => { s1 with error := some m, isGrading := false }

def handleReset (s : AppState) : AppState :=
  match s.question with
  | none => s
  | some q => { s with userCode := q.initialCode, simulationResult := none,
                       attempts := s.attempts + 1 }

def handleBackToSetup (s : AppState) : AppState :=
  { s with question := none, userCode := "", simulationResult := none,
           examResult := none, error := none }

def timerEffect (now : Nat) (s : AppState) : AppState :=
  let s0 := { s with timerCount := 0 }
  if s.question.isSome ∧ s.examResult = none then
    { s0 with startTime := now, elapsedTime := 0, attempts := 0, timerCount := 1 }
  else s0

def timerTick (s : AppState) : AppState :=
  if s.timerCount = 0 then s else { s with elapsedTime := s.elapsedTime + 1 }

inductive Action
  | startQuiz (outcome : Except String GeneratedQuestion)
  | runCode (outcome : Except String SimulationResult)
  | finishExam (outcome : Except String ExamResult)
  | reset
  | backToSetup
  | effectRun (now : Nat)
  | tick

def step : Action → AppState → AppState
  | .startQuiz o, s => handleStartQuiz o s
  | .runCode o, s => handleRunCode o s
  | .finishExam o, s => handleFinishExam o s
  | .reset, s => handleReset s
  | .backToSetup, s => handleBackToSetup s
  | .effectRun now, s => timerEffect now s
  | .tick, s => timerTick s

/-! UI flags computed in `renderQuiz`: the `disabled` props of the
Reset, Test Run and Finish & Grade buttons, and the editor `readOnly`
prop. -/

def runDisabled (s : AppState) : Bool := s.isSimulating || s.examResult.isSome

def resetDisabled (s : AppState) : Bool := s.examResult.isSome

def finishGradeDisabled (s : AppState) : Bool := s.isGrading || s.examResult.isSome

def editorReadOnly (s : AppState) : Bool := s.examResult.isSome

/-! ## Editor decorations

Embedding of `updateDecorations` from `Editor.tsx`: the regex `/____/g`
`exec` loop finds the leftmost non-overlapping occurrences of four
consecutive underscores, builds a decoration for each (positions are
modelled as character offsets, monaco ranges being the image of offsets
under `getPositionAt`), and `deltaDecorations` replaces all previously
applied decorations with the new list; on empty content the function
returns without touching the decorations. -/

structure Decoration where
  startIndex : Nat
  endIndex : Nat
  isWholeLine : Bool
  inlineClassName : String
  afterContentClassName : String
  hoverMessage : String
deriving DecidableEq

def blankDecoration (p : Nat) : Decoration :=
  { startIndex := p
    endIndex := p + 4
    isWholeLine := false
    inlineClassName := "blank-highlight"
    afterContentClassName := "blank-badge"
    hoverMessage := "**Action Required**: Replace `____` with the correct code." }

def blanksGo : Nat → List Char → Nat → List Nat
  | 0, _, _ => []
  | _ + 1, [], _ => []
  | n + 1, c :: rest, i =>
    if c = '_' ∧ rest.take 3 = ['_', '_', '_'] then
      i :: blanksGo n (rest.drop 3) (i + 4)
    else blanksGo n rest (i + 1)

def blankStarts (code : List Char) : List Nat := blanksGo code.length code 0

def updateDecorations (code : List Char) (old : List Decoration) : List Decoration :=
  if code = [] then old
  else (blankStarts code).map blankDecoration

def sampleQuestion : GeneratedQuestion :=
  { title := "t", instructions := "i", codeSnippet := "int x = ____;",
    initialCode := "int x = ____;", solution := "int x = 1;", explanation := "e" }

def outOfRangeExam : ExamResult :=
  { grade := 7, label := "X", feedback := "f", styleScore := 150, correctnessScore := -5 }

def rawWithTrailingComment : RawQuestion :=
  { title := "Sum", instructions := "Fill the blank", codeSnippet := "int y = 2; // answer",
    solution := "int y = 2;", explanation := "ints" }

def sampleConfig : QuizConfig :=
  { difficulty := .beginner, topic := .variables, taskType := .fillInBlank,
    language := .english }

def rawC2 : RawQuestion :=
  { title := "T", instructions := "I", codeSnippet := "int x = 1; // set",
    solution := "S", explanation := "E" }

def rawWithBlockComment : RawQuestion :=
  { title := "B", instructions := "Fix", codeSnippet := "int z /* note */ = 3;",
    solution := "int z = 3;", explanation := "x" }

/-! ## Lifecycle and timer claims -/

def sampleBaseState : AppState :=
  { config := sampleConfig, question := some sampleQuestion, userCode := "user code",
    activeTab := "Main.java", simulationResult := none, examResult := none,
    startTime := 0, attempts := 2, elapsedTime := 5, isGenerating := false,
    isSimulating := false, isGrading := false, error := none, timerCount := 1 }

def simulatingState : AppState := { sampleBaseState with isSimulating := true }

def sampleExam : ExamResult :=
  { grade := 5, label := "Very Good", feedback := "ok", styleScore := 80,
    correctnessScore := 90 }

def gradedState : AppState :=
  { sampleBaseState with examResult := some sampleExam, timerCount := 0 }

def blanksRun (l : List Char) (i : Nat) : List Nat := blanksGo l.length l i

example : cleanCode "int x = 1; // note" = "int x = 1;" := by decide

example : cleanCode "a\n\n\n\nb" = "a\n\nb" := by decide

example : cleanCode "  a /* c */ b  " = "a  b" := by decide

example : cleanCode "x\n   \n\n   \ny" = "x\n\ny" := by decide

theorem head?_append_of_ne_nil {a b : List Char} (h : a ≠ []) :
    (a ++ b).head? = a.head? := by
  cases a with
  | nil => exact absurd rfl h
  | cons c r => rfl

theorem hasDSlash_append_right {a b : List Char} (h : hasDSlash b = true) :
    hasDSlash (a ++ b) = true := by
  induction a with
  | nil => simpa using h
  | cons c r ih => simp [hasDSlash, ih]

theorem hasSS_append_right {a b : List Char} (h : hasSS b = true) :
    hasSS (a ++ b) = true := by
  induction a with
  | nil => simpa using h
  | cons c r ih => simp [hasSS, ih]

theorem hasBlock_append_right {a b : List Char} (h : hasBlock b = true) :
    hasBlock (a ++ b) = true := by
  induction a with
  | nil => simpa using h
  | cons c r ih => simp [hasBlock, ih]

theorem hasTriple_append_right {a b : List Char} (h : hasTriple b = true) :
    hasTriple (a ++ b) = true := by
  induction a with
  | nil => simpa using h
  | cons c r ih => simp [hasTriple, ih]

theorem hasDSlash_append_left {a : List Char} (b : List Char) (h : hasDSlash a = true) :
    hasDSlash (a ++ b) = true := by
  induction a with
  | nil => simp [hasDSlash] at h
  | cons c r ih =>
    simp only [hasDSlash, Bool.or_eq_true, decide_eq_true_eq] at h ⊢
    rcases h with ⟨hc, hh⟩ | h
    · refine Or.inl ⟨hc, ?_⟩
      cases r with
      | nil => simp at hh
      | cons d r2 => simpa using hh
    · exact Or.inr (ih h)

theorem hasSS_append_left {a : List Char} (b : List Char) (h : hasSS a = true) :
    hasSS (a ++ b) = true := by
  induction a with
  | nil => simp [hasSS] at h
  | cons c r ih =>
    simp only [hasSS, Bool.or_eq_true, decide_eq_true_eq] at h ⊢
    rcases h with ⟨hc, hh⟩ | h
    · refine Or.inl ⟨hc, ?_⟩
      cases r with
      | nil => simp at hh
      | cons d r2 => simpa using hh
    · exact Or.inr (ih h)

theorem hasTriple_append_left {a : List Char} (b : List Char) (h : hasTriple a = true) :
    hasTriple (a ++ b) = true := by
  induction a with
  | nil => simp [hasTriple] at h
  | cons c r ih =>
    simp only [hasTriple, Bool.or_eq_true, decide_eq_true_eq] at h ⊢
    rcases h with ⟨hc, hh, ht⟩ | h
    · refine Or.inl ⟨hc, ?_, ?_⟩
      · cases r with
        | nil => simp at hh
        | cons d r2 => simpa using hh
      · cases r with
        | nil => simp at hh
        | cons d r2 =>
          cases r2 with
          | nil => simp at ht
          | cons e r3 => simpa using ht
    · exact Or.inr (ih h)

/-! ## Specifications of the scanning helpers -/

theorem findClose_none_iff {l : List Char} : findClose l = none ↔ hasSS l = false := by
  induction l with
  | nil => simp [findClose, hasSS]
  | cons c r ih =>
    by_cases h : c = '*' ∧ r.head? = some '/'
    · simp [findClose, hasSS, h]
    · simp [findClose, hasSS, h, ih]

theorem findClose_some_decomp {l r : List Char} (h : findClose l = some r) :
    ∃ a, l = a ++ '*' :: '/' :: r := by
  induction l with
  | nil => simp [findClose] at h
  | cons c r2 ih =>
    by_cases hc : c = '*' ∧ r2.head? = some '/'
    · simp only [findClose, if_pos hc] at h
      obtain ⟨hc1, hc2⟩ := hc
      cases r2 with
      | nil => simp at hc2
      | cons d r3 =>
        simp only [List.head?] at hc2
        injection hc2 with hd
        subst hd hc1
        simp only [List.tail] at h
        injection h with h
        exact ⟨[], by simp [h]⟩
    · simp only [findClose, if_neg hc] at h
      obtain ⟨a, ha⟩ := ih h
      exact ⟨c :: a, by simp [ha]⟩

theorem findClose_length {l r : List Char} (h : findClose l = some r) :
    r.length + 2 ≤ l.length := by
  obtain ⟨a, ha⟩ := findClose_some_decomp h
  subst ha
  simp

theorem matchBlank_none_iff {l : List Char} : matchBlank l = none ↔ runNoNL l = true := by
  induction l with
  | nil => simp [matchBlank, runNoNL]
  | cons c r ih =>
    by_cases hw : isWs c = true
    · cases hmb : matchBlank r with
      | some r' =>
        have hr : runNoNL r = false := by
          cases hrn : runNoNL r with
          | false => rfl
          | true => rw [← ih] at hrn; simp [hrn] at hmb
        simp [matchBlank, runNoNL, hw, hmb, hr]
      | none =>
        by_cases hn : isNL c = true
        · simp [matchBlank, runNoNL, hw, hmb, hn]
        · simp only [Bool.not_eq_true] at hn
          simp [matchBlank, runNoNL, hw, hmb, hn, ih.mp hmb]
    · simp only [Bool.not_eq_true] at hw
      simp [matchBlank, runNoNL, hw]

theorem matchBlank_some_decomp {l r : List Char} (h : matchBlank l = some r) :
    ∃ w, l = w ++ r ∧ w ≠ [] ∧ (∀ c ∈ w, isWs c = true) ∧ runNoNL r = true := by
  induction l generalizing r with
  | nil => simp [matchBlank] at h
  | cons c r2 ih =>
    by_cases hw : isWs c = true
    · cases hmb : matchBlank r2 with
      | some r' =>
        simp only [matchBlank, if_pos hw, hmb] at h
        injection h with h; subst h
        obtain ⟨w, hw1, hw2, hw3, hw4⟩ := ih hmb
        exact ⟨c :: w, by simp [hw1], by simp, by
          intro d hd
          rcases List.mem_cons.mp hd with h | h
          · exact h ▸ hw
          · exact hw3 d h, hw4⟩
      | none =>
        by_cases hn : isNL c = true
        · simp only [matchBlank, if_pos hw, hmb, if_pos hn] at h
          injection h with h; subst h
          exact ⟨[c], by simp, by simp, by simpa using hw,
            matchBlank_none_iff.mp hmb⟩
        · simp [matchBlank, hw, hmb, hn] at h
    · simp only [Bool.not_eq_true] at hw
      simp [matchBlank, hw] at h

theorem matchBlank_length {l r : List Char} (h : matchBlank l = some r) :
    r.length < l.length := by
  obtain ⟨w, hw1, hw2, -, -⟩ := matchBlank_some_decomp h
  subst hw1
  have : 0 < w.length := List.length_pos.mpr hw2
  simp
  omega

theorem matchBlank_not_ws {c : Char} {rest : List Char} (h : isWs c = false) :
    matchBlank (c :: rest) = none := by
  simp [matchBlank, h]

theorem matchBlank_nl_none {rest : List Char} (h : matchBlank rest = none) :
    matchBlank ('\n' :: rest) = some rest := by
  simp [matchBlank, h, isWs, isNL]

theorem matchBlank_nl_some {rest r : List Char} (h : matchBlank rest = some r) :
    matchBlank ('\n' :: rest) = some r := by
  simp [matchBlank, h, isWs]

/-! ## Fuel irrelevance and unfolding equations

The fueled scanners do not depend on the exact amount of fuel as long as
it covers the length of the input; from this we derive unfolding
equations phrased directly on `stripBlockComments`, `blankRun` and
`collapseNewlines`, which later proofs use instead of the raw fueled
definitions. -/

theorem blockGo_congr : ∀ (n m : Nat) (l : List Char), l.length ≤ n → l.length ≤ m →
    blockGo n l = blockGo m l := by
  intro n
  induction n with
  | zero =>
    intro m l hn _
    have hl : l = [] := List.length_eq_zero.mp (Nat.le_zero.mp hn)
    subst hl
    cases m <;> simp [blockGo]
  | succ n ih =>
    intro m l hn hm
    cases l with
    | nil => cases m <;> simp [blockGo]
    | cons c rest =>
      cases m with
      | zero => simp at hm
      | succ m =>
        simp only [blockGo]
        by_cases hc : c = '/' ∧ rest.head? = some '*'
        · rw [if_pos hc, if_pos hc]
          cases hf : findClose rest.tail with
          | some rest' =>
            have hlen : rest'.length + 2 ≤ rest.tail.length := findClose_length hf
            have h1 : rest.tail.length ≤ rest.length := by cases rest <;> simp
            simp only [List.length_cons] at hn hm
            exact ih m rest' (by omega) (by omega)
          | none =>
            simp only [List.length_cons] at hn hm
            rw [ih m rest (by omega) (by omega)]
        · rw [if_neg hc, if_neg hc]
          simp only [List.length_cons] at hn hm
          rw [ih m rest (by omega) (by omega)]

theorem blockGo_step (n : Nat) (c : Char) (rest : List Char) :
    blockGo (n + 1) (c :: rest) =
      if c = '/' ∧ rest.head? = some '*' then
        match findClose rest.tail with
        | some rest' => blockGo n rest'
        | none => c :: blockGo n rest
      else c :: blockGo n rest := rfl

theorem stripBlockComments_nil : stripBlockComments [] = [] := rfl

theorem stripBlockComments_cons_some {r rest' : List Char} (h : findClose r = some rest') :
    stripBlockComments ('/' :: '*' :: r) = stripBlockComments rest' := by
  show blockGo (r.length + 1 + 1) ('/' :: '*' :: r) = _
  rw [blockGo_step, if_pos ⟨rfl, rfl⟩]
  show (match findClose r with
        | some rest' => blockGo (r.length + 1) rest'
        | none => '/' :: blockGo (r.length + 1) ('*' :: r)) = _
  rw [h]
  exact blockGo_congr _ _ rest' (by have := findClose_length h; omega) le_rfl

theorem stripBlockComments_cons_none {r : List Char} (h : findClose r = none) :
    stripBlockComments ('/' :: '*' :: r) = '/' :: stripBlockComments ('*' :: r) := by
  show blockGo (r.length + 1 + 1) ('/' :: '*' :: r) = _
  rw [blockGo_step, if_pos ⟨rfl, rfl⟩]
  show (match findClose r with
        | some rest' => blockGo (r.length + 1) rest'
        | none => '/' :: blockGo (r.length + 1) ('*' :: r)) = _
  rw [h]
  rfl

theorem stripBlockComments_cons_other {c : Char} {rest : List Char}
    (h : ¬(c = '/' ∧ rest.head? = some '*')) :
    stripBlockComments (c :: rest) = c :: stripBlockComments rest := by
  show blockGo (rest.length + 1) (c :: rest) = _
  rw [blockGo_step, if_neg h]
  rfl

theorem squeezeBlankLines_eq (l : List Char) : squeezeBlankLines l = blankRun true l := rfl

theorem blankGo_congr : ∀ (n m : Nat) (b : Bool) (l : List Char), l.length ≤ n → l.length ≤ m →
    blankGo n b l = blankGo m b l := by
  intro n
  induction n with
  | zero =>
    intro m b l hn _
    have hl : l = [] := List.length_eq_zero.mp (Nat.le_zero.mp hn)
    subst hl
    cases m <;> cases b <;> rfl
  | succ n ih =>
    intro m b l hn hm
    cases l with
    | nil => cases m <;> cases b <;> rfl
    | cons c rest =>
      cases m with
      | zero => simp at hm
      | succ m =>
        cases b with
        | false =>
          show c :: blankGo n (isLineTerm c) rest = c :: blankGo m (isLineTerm c) rest
          simp only [List.length_cons] at hn hm
          rw [ih m (isLineTerm c) rest (by omega) (by omega)]
        | true =>
          show (match matchBlank (c :: rest) with
                | some r => '\n' :: blankGo n true r
                | none => c :: blankGo n (isLineTerm c) rest) =
               (match matchBlank (c :: rest) with
                | some r => '\n' :: blankGo m true r
                | none => c :: blankGo m (isLineTerm c) rest)
          cases hmb : matchBlank (c :: rest) with
          | some r =>
            have hlen := matchBlank_length hmb
            simp only [List.length_cons] at hn hm hlen
            show '\n' :: blankGo n true r = '\n' :: blankGo m true r
            rw [ih m true r (by omega) (by omega)]
          | none =>
            simp only [List.length_cons] at hn hm
            show c :: blankGo n (isLineTerm c) rest = c :: blankGo m (isLineTerm c) rest
            rw [ih m (isLineTerm c) rest (by omega) (by omega)]

theorem blankRun_nil (b : Bool) : blankRun b [] = [] := by
  cases b <;> rfl

theorem blankRun_false {c : Char} {rest : List Char} :
    blankRun false (c :: rest) = c :: blankRun (isLineTerm c) rest := rfl

theorem blankRun_true_some {c : Char} {rest r : List Char} (h : matchBlank (c :: rest) = some r) :
    blankRun true (c :: rest) = '\n' :: blankRun true r := by
  show blankGo (rest.length + 1) true (c :: rest) = _
  show (match matchBlank (c :: rest) with
        | some r => '\n' :: blankGo rest.length true r
        | none => c :: blankGo rest.length (isLineTerm c) rest) = _
  rw [h]
  show '\n' :: blankGo rest.length true r = _
  have hlen := matchBlank_length h
  simp only [List.length_cons] at hlen
  rw [blankGo_congr _ _ true r (by omega) le_rfl]
  rfl

theorem blankRun_true_none {c : Char} {rest : List Char} (h : matchBlank (c :: rest) = none) :
    blankRun true (c :: rest) = c :: blankRun (isLineTerm c) rest := by
  show blankGo (rest.length + 1) true (c :: rest) = _
  show (match matchBlank (c :: rest) with
        | some r => '\n' :: blankGo rest.length true r
        | none => c :: blankGo rest.length (isLineTerm c) rest) = _
  rw [h]
  rfl

theorem collapseGo_congr : ∀ (n m : Nat) (l : List Char), l.length ≤ n → l.length ≤ m →
    collapseGo n l = collapseGo m l := by
  intro n
  induction n with
  | zero =>
    intro m l hn _
    have hl : l = [] := List.length_eq_zero.mp (Nat.le_zero.mp hn)
    subst hl
    cases m <;> simp [collapseGo]
  | succ n ih =>
    intro m l hn hm
    cases l with
    | nil => cases m <;> simp [collapseGo]
    | cons c rest =>
      cases m with
      | zero => simp at hm
      | succ m =>
        simp only [collapseGo]
        by_cases hc : c = '\n' ∧ rest.head? = some '\n' ∧ rest.tail.head? = some '\n'
        · rw [if_pos hc, if_pos hc]
          have hlen : (rest.dropWhile (· = '\n')).length ≤ rest.length :=
            (List.dropWhile_sublist _).length_le
          simp only [List.length_cons] at hn hm
          rw [ih m (rest.dropWhile (· = '\n')) (by omega) (by omega)]
        · rw [if_neg hc, if_neg hc]
          simp only [List.length_cons] at hn hm
          rw [ih m rest (by omega) (by omega)]

theorem collapseGo_step (n : Nat) (c : Char) (rest : List Char) :
    collapseGo (n + 1) (c :: rest) =
      if c = '\n' ∧ rest.head? = some '\n' ∧ rest.tail.head? = some '\n' then
        '\n' :: '\n' :: collapseGo n (rest.dropWhile (· = '\n'))
      else c :: collapseGo n rest := rfl

theorem collapseNewlines_nil : collapseNewlines [] = [] := rfl

theorem collapseNewlines_triple {rest : List Char}
    (h1 : rest.head? = some '\n') (h2 : rest.tail.head? = some '\n') :
    collapseNewlines ('\n' :: rest) =
      '\n' :: '\n' :: collapseNewlines (rest.dropWhile (· = '\n')) := by
  show collapseGo (rest.length + 1) ('\n' :: rest) = _
  rw [collapseGo_step, if_pos ⟨rfl, h1, h2⟩]
  have hlen : (rest.dropWhile (· = '\n')).length ≤ rest.length :=
    (List.dropWhile_sublist _).length_le
  rw [collapseGo_congr _ _ (rest.dropWhile (· = '\n')) (by omega) le_rfl]
  rfl

theorem collapseNewlines_other {c : Char} {rest : List Char}
    (h : ¬(c = '\n' ∧ rest.head? = some '\n' ∧ rest.tail.head? = some '\n')) :
    collapseNewlines (c :: rest) = c :: collapseNewlines rest := by
  show collapseGo (rest.length + 1) (c :: rest) = _
  rw [collapseGo_step, if_neg h]
  rfl

theorem lineGo_congr : ∀ (n m : Nat) (b : Bool) (l : List Char), l.length ≤ n → l.length ≤ m →
    lineGo n b l = lineGo m b l := by
  intro n
  induction n with
  | zero =>
    intro m b l hn _
    have hl : l = [] := List.length_eq_zero.mp (Nat.le_zero.mp hn)
    subst hl
    cases m <;> cases b <;> rfl
  | succ n ih =>
    intro m b l hn hm
    cases l with
    | nil => cases m <;> cases b <;> rfl
    | cons c rest =>
      cases m with
      | zero => simp at hm
      | succ m =>
        simp only [List.length_cons] at hn hm
        cases b with
        | true =>
          show (if isLineTerm c then c :: lineGo n false rest else lineGo n true rest) =
               (if isLineTerm c then c :: lineGo m false rest else lineGo m true rest)
          by_cases hc : isLineTerm c = true
          · rw [if_pos hc, if_pos hc, ih m false rest (by omega) (by omega)]
          · rw [if_neg hc, if_neg hc, ih m true rest (by omega) (by omega)]
        | false =>
          show (if c = '/' ∧ rest.head? = some '/' then lineGo n true rest.tail
                else c :: lineGo n false rest) =
               (if c = '/' ∧ rest.head? = some '/' then lineGo m true rest.tail
                else c :: lineGo m false rest)
          by_cases hc : c = '/' ∧ rest.head? = some '/'
          · have ht : rest.tail.length ≤ rest.length := by cases rest <;> simp
            rw [if_pos hc, if_pos hc, ih m true rest.tail (by omega) (by omega)]
          · rw [if_neg hc, if_neg hc, ih m false rest (by omega) (by omega)]

theorem stripLineComments_eq (l : List Char) : stripLineComments l = lineRun false l := rfl

theorem lineRun_nil (b : Bool) : lineRun b [] = [] := by cases b <;> rfl

theorem lineRun_true_term {c : Char} {rest : List Char} (h : isLineTerm c = true) :
    lineRun true (c :: rest) = c :: lineRun false rest := by
  show (if isLineTerm c then c :: lineGo rest.length false rest
        else lineGo rest.length true rest) = _
  rw [if_pos h]
  rfl

theorem lineRun_true_skip {c : Char} {rest : List Char} (h : isLineTerm c = false) :
    lineRun true (c :: rest) = lineRun true rest := by
  show (if isLineTerm c then c :: lineGo rest.length false rest
        else lineGo rest.length true rest) = _
  rw [if_neg (by simp [h])]
  rfl

theorem lineRun_false_dslash {r : List Char} :
    lineRun false ('/' :: '/' :: r) = lineRun true r := by
  show (if ('/' : Char) = '/' ∧ ('/' :: r).head? = some '/' then
          lineGo (r.length + 1) true ('/' :: r).tail
        else '/' :: lineGo (r.length + 1) false ('/' :: r)) = _
  rw [if_pos ⟨rfl, rfl⟩]
  exact lineGo_congr _ _ true r (by simp) le_rfl

theorem lineRun_false_other {c : Char} {rest : List Char}
    (h : ¬(c = '/' ∧ rest.head? = some '/')) :
    lineRun false (c :: rest) = c :: lineRun false rest := by
  show (if c = '/' ∧ rest.head? = some '/' then lineGo rest.length true rest.tail
        else c :: lineGo rest.length false rest) = _
  rw [if_neg h]
  rfl

/-! ## Fixed points of the passes

Each pass leaves its input unchanged when the corresponding pattern is
absent. -/

theorem lineRun_false_fix : ∀ (n : Nat) (l : List Char), l.length ≤ n →
    hasDSlash l = false → lineRun false l = l := by
  intro n
  induction n with
  | zero =>
    intro l hn _
    have hl : l = [] := List.length_eq_zero.mp (Nat.le_zero.mp hn)
    subst hl
    rfl
  | succ n ih =>
    intro l hn hd
    cases l with
    | nil => rfl
    | cons c rest =>
      simp only [hasDSlash, Bool.or_eq_false_iff, decide_eq_false_iff_not] at hd
      rw [lineRun_false_other hd.1]
      simp only [List.length_cons] at hn
      rw [ih rest (by omega) hd.2]

theorem stripLineComments_fix {l : List Char} (h : hasDSlash l = false) :
    stripLineComments l = l :=
  lineRun_false_fix l.length l le_rfl h

theorem stripBlockComments_fix : ∀ (n : Nat) (l : List Char), l.length ≤ n →
    hasBlock l = false → stripBlockComments l = l := by
  intro n
  induction n with
  | zero =>
    intro l hn _
    have hl : l = [] := List.length_eq_zero.mp (Nat.le_zero.mp hn)
    subst hl
    rfl
  | succ n ih =>
    intro l hn hb
    cases l with
    | nil => rfl
    | cons c rest =>
      simp only [hasBlock, Bool.or_eq_false_iff, Bool.and_eq_false_iff,
        decide_eq_false_iff_not] at hb
      simp only [List.length_cons] at hn
      by_cases hc : c = '/' ∧ rest.head? = some '*'
      · have hss : hasSS rest.tail = false := by
          rcases hb.1 with h | h
          · exact absurd hc h
          · exact h
        obtain ⟨hc1, hc2⟩ := hc
        cases rest with
        | nil => simp at hc2
        | cons d r2 =>
          simp only [List.head?] at hc2
          injection hc2 with hd2
          subst hd2 hc1
          simp only [List.tail_cons] at hss
          rw [stripBlockComments_cons_none (findClose_none_iff.mpr hss)]
          simp only [List.length_cons] at hn
          rw [ih ('*' :: r2) (by simp; omega) hb.2]
      · rw [stripBlockComments_cons_other hc]
        rw [ih rest (by omega) hb.2]

theorem collapseNewlines_fix : ∀ (n : Nat) (l : List Char), l.length ≤ n →
    hasTriple l = false → collapseNewlines l = l := by
  intro n
  induction n with
  | zero =>
    intro l hn _
    have hl : l = [] := List.length_eq_zero.mp (Nat.le_zero.mp hn)
    subst hl
    rfl
  | succ n ih =>
    intro l hn ht
    cases l with
    | nil => rfl
    | cons c rest =>
      simp only [hasTriple, Bool.or_eq_false_iff, decide_eq_false_iff_not] at ht
      rw [collapseNewlines_other ht.1]
      simp only [List.length_cons] at hn
      rw [ih rest (by omega) ht.2]

theorem okBlankF_congr : ∀ (n m : Nat) (b : Bool) (l : List Char), l.length ≤ n → l.length ≤ m →
    okBlankF n b l = okBlankF m b l := by
  intro n
  induction n with
  | zero =>
    intro m b l hn _
    have hl : l = [] := List.length_eq_zero.mp (Nat.le_zero.mp hn)
    subst hl
    cases m <;> cases b <;> rfl
  | succ n ih =>
    intro m b l hn hm
    cases l with
    | nil => cases m <;> cases b <;> rfl
    | cons c rest =>
      cases m with
      | zero => simp at hm
      | succ m =>
        simp only [List.length_cons] at hn hm
        cases b with
        | false =>
          show okBlankF n (isLineTerm c) rest = okBlankF m (isLineTerm c) rest
          rw [ih m (isLineTerm c) rest (by omega) (by omega)]
        | true =>
          show (match matchBlank (c :: rest) with
                | some r => decide (c = '\n') && decide (r = rest) && okBlankF n true rest
                | none => okBlankF n (isLineTerm c) rest) =
               (match matchBlank (c :: rest) with
                | some r => decide (c = '\n') && decide (r = rest) && okBlankF m true rest
                | none => okBlankF m (isLineTerm c) rest)
          cases hmb : matchBlank (c :: rest) with
          | some r =>
            show (decide (c = '\n') && decide (r = rest) && okBlankF n true rest) =
                 (decide (c = '\n') && decide (r = rest) && okBlankF m true rest)
            rw [ih m true rest (by omega) (by omega)]
          | none =>
            show okBlankF n (isLineTerm c) rest = okBlankF m (isLineTerm c) rest
            rw [ih m (isLineTerm c) rest (by omega) (by omega)]

theorem okBlank_nil (b : Bool) : okBlank b [] = true := by cases b <;> rfl

theorem okBlank_false {c : Char} {rest : List Char} :
    okBlank false (c :: rest) = okBlank (isLineTerm c) rest := rfl

theorem okBlank_true_some {c : Char} {rest r : List Char} (h : matchBlank (c :: rest) = some r) :
    okBlank true (c :: rest) = (decide (c = '\n') && decide (r = rest) && okBlank true rest) := by
  show (match matchBlank (c :: rest) with
        | some r => decide (c = '\n') && decide (r = rest) && okBlankF rest.length true rest
        | none => okBlankF rest.length (isLineTerm c) rest) = _
  rw [h]
  rfl

theorem okBlank_true_none {c : Char} {rest : List Char} (h : matchBlank (c :: rest) = none) :
    okBlank true (c :: rest) = okBlank (isLineTerm c) rest := by
  show (match matchBlank (c :: rest) with
        | some r => decide (c = '\n') && decide (r = rest) && okBlankF rest.length true rest
        | none => okBlankF rest.length (isLineTerm c) rest) = _
  rw [h]
  rfl

theorem okBlank_fix : ∀ (n : Nat) (b : Bool) (l : List Char), l.length ≤ n →
    okBlank b l = true → blankRun b l = l := by
  intro n
  induction n with
  | zero =>
    intro b l hn _
    have hl : l = [] := List.length_eq_zero.mp (Nat.le_zero.mp hn)
    subst hl
    exact blankRun_nil b
  | succ n ih =>
    intro b l hn hok
    cases l with
    | nil => exact blankRun_nil b
    | cons c rest =>
      simp only [List.length_cons] at hn
      cases b with
      | false =>
        rw [blankRun_false]
        rw [okBlank_false] at hok
        rw [ih (isLineTerm c) rest (by omega) hok]
      | true =>
        cases hmb : matchBlank (c :: rest) with
        | some r =>
          rw [okBlank_true_some hmb] at hok
          simp only [Bool.and_eq_true, decide_eq_true_eq] at hok
          obtain ⟨⟨hc, hr⟩, hok⟩ := hok
          rw [blankRun_true_some hmb, hr, ih true rest (by omega) hok, hc]
        | none =>
          rw [blankRun_true_none hmb]
          rw [okBlank_true_none hmb] at hok
          rw [ih (isLineTerm c) rest (by omega) hok]

theorem runNoNL_cons_ws {c : Char} {r : List Char} (h : isWs c = true) :
    runNoNL (c :: r) = (!isNL c && runNoNL r) := by
  simp [runNoNL, h]

theorem runNoNL_cons_not_ws {c : Char} {r : List Char} (h : isWs c = false) :
    runNoNL (c :: r) = true := by
  simp [runNoNL, h]

theorem runNoNL_append_left {a b : List Char} (h : runNoNL (a ++ b) = true) :
    runNoNL a = true := by
  induction a with
  | nil => rfl
  | cons c a' ih =>
    by_cases hws : isWs c = true
    · rw [List.cons_append, runNoNL_cons_ws hws] at h
      rw [runNoNL_cons_ws hws]
      simp only [Bool.and_eq_true] at h ⊢
      exact ⟨h.1, ih h.2⟩
    · simp only [Bool.not_eq_true] at hws
      rw [runNoNL_cons_not_ws hws]

theorem runNoNL_blankRun : ∀ (n : Nat) (b : Bool) (l : List Char), l.length ≤ n →
    runNoNL l = true → runNoNL (blankRun b l) = true := by
  intro n
  induction n with
  | zero =>
    intro b l hn _
    have hl : l = [] := List.length_eq_zero.mp (Nat.le_zero.mp hn)
    subst hl
    rw [blankRun_nil]
    rfl
  | succ n ih =>
    intro b l hn hr
    cases l with
    | nil => rw [blankRun_nil]; rfl
    | cons c rest =>
      simp only [List.length_cons] at hn
      by_cases hws : isWs c = true
      · rw [runNoNL_cons_ws hws] at hr
        simp only [Bool.and_eq_true, Bool.not_eq_true'] at hr
        obtain ⟨hnl, hrest⟩ := hr
        have hmb : matchBlank (c :: rest) = none := by
          apply matchBlank_none_iff.mpr
          rw [runNoNL_cons_ws hws, hnl, hrest]
          rfl
        cases b with
        | true =>
          rw [blankRun_true_none hmb, runNoNL_cons_ws hws, hnl]
          simp only [Bool.not_false, Bool.true_and]
          exact ih (isLineTerm c) rest (by omega) hrest
        | false =>
          rw [blankRun_false, runNoNL_cons_ws hws, hnl]
          simp only [Bool.not_false, Bool.true_and]
          exact ih (isLineTerm c) rest (by omega) hrest
      · simp only [Bool.not_eq_true] at hws
        cases b with
        | true =>
          rw [blankRun_true_none (matchBlank_not_ws hws), runNoNL_cons_not_ws hws]
        | false =>
          rw [blankRun_false, runNoNL_cons_not_ws hws]

theorem isWs_of_isNL {c : Char} (h : isNL c = true) : isWs c = true := by
  simp only [isNL, Bool.or_eq_true, beq_iff_eq] at h
  rcases h with h | h <;> subst h <;> decide

theorem matchBlank_nl_ne_none {rest : List Char} : matchBlank ('\n' :: rest) ≠ none := by
  cases hmb : matchBlank rest with
  | some r => rw [matchBlank_nl_some hmb]; simp
  | none => rw [matchBlank_nl_none hmb]; simp

theorem blankRun_head_not_nl {l : List Char} (hr : runNoNL l = true)
    {hd : Char} (hh : (blankRun true l).head? = some hd) : isNL hd = false := by
  cases l with
  | nil => rw [blankRun_nil] at hh; simp at hh
  | cons c rest =>
    by_cases hws : isWs c = true
    · rw [runNoNL_cons_ws hws] at hr
      simp only [Bool.and_eq_true, Bool.not_eq_true'] at hr
      have hmb : matchBlank (c :: rest) = none := by
        apply matchBlank_none_iff.mpr
        rw [runNoNL_cons_ws hws, hr.1, hr.2]
        rfl
      rw [blankRun_true_none hmb] at hh
      simp only [List.head?_cons] at hh
      injection hh with hh
      subst hh
      exact hr.1
    · simp only [Bool.not_eq_true] at hws
      rw [blankRun_true_none (matchBlank_not_ws hws)] at hh
      simp only [List.head?_cons] at hh
      injection hh with hh
      rw [← hh]
      cases hnl : isNL c with
      | false => rfl
      | true => rw [isWs_of_isNL hnl] at hws; cases hws

theorem blankRun_second_not_nl {rest : List Char}
    (hh : (blankRun true rest).head? = some '\n') :
    (blankRun true rest).tail.head? ≠ some '\n' := by
  cases rest with
  | nil => rw [blankRun_nil] at hh; simp at hh
  | cons d r2 =>
    cases hmb : matchBlank (d :: r2) with
    | some r =>
      rw [blankRun_true_some hmb]
      simp only [List.tail_cons]
      intro hcon
      obtain ⟨-, -, -, -, hrn⟩ := matchBlank_some_decomp hmb
      have := blankRun_head_not_nl hrn hcon
      simp [isNL] at this
    | none =>
      rw [blankRun_true_none hmb] at hh
      simp only [List.head?_cons] at hh
      injection hh with hh
      subst hh
      exact absurd hmb matchBlank_nl_ne_none

theorem hasTriple_blankRun : ∀ (n : Nat) (b : Bool) (l : List Char), l.length ≤ n →
    hasTriple (blankRun b l) = false := by
  intro n
  induction n with
  | zero =>
    intro b l hn
    have hl : l = [] := List.length_eq_zero.mp (Nat.le_zero.mp hn)
    subst hl
    rw [blankRun_nil]
    rfl
  | succ n ih =>
    intro b l hn
    cases l with
    | nil => rw [blankRun_nil]; rfl
    | cons c rest =>
      simp only [List.length_cons] at hn
      cases b with
      | false =>
        rw [blankRun_false]
        simp only [hasTriple, Bool.or_eq_false_iff]
        refine ⟨decide_eq_false ?_, ih (isLineTerm c) rest (by omega)⟩
        rintro ⟨h1, h2, h3⟩
        subst h1
        have hterm : isLineTerm '\n' = true := by decide
        rw [hterm] at h2 h3
        exact blankRun_second_not_nl h2 h3
      | true =>
        cases hmb : matchBlank (c :: rest) with
        | some r =>
          rw [blankRun_true_some hmb]
          simp only [hasTriple, Bool.or_eq_false_iff]
          obtain ⟨-, -, -, -, hrn⟩ := matchBlank_some_decomp hmb
          have hlen := matchBlank_length hmb
          simp only [List.length_cons] at hlen
          refine ⟨decide_eq_false ?_, ih true r (by omega)⟩
          rintro ⟨-, h2, -⟩
          have := blankRun_head_not_nl hrn h2
          simp [isNL] at this
        | none =>
          rw [blankRun_true_none hmb]
          simp only [hasTriple, Bool.or_eq_false_iff]
          refine ⟨decide_eq_false ?_, ih (isLineTerm c) rest (by omega)⟩
          rintro ⟨h1, -, -⟩
          subst h1
          exact absurd hmb matchBlank_nl_ne_none

theorem runNoNL_cons_of {c : Char} {r : List Char} (hnl : isNL c = false)
    (h : runNoNL r = true) : runNoNL (c :: r) = true := by
  by_cases hws : isWs c = true
  · rw [runNoNL_cons_ws hws, hnl, h]
    rfl
  · simp only [Bool.not_eq_true] at hws
    exact runNoNL_cons_not_ws hws

theorem okBlank_blankRun : ∀ (n : Nat) (b : Bool) (l : List Char), l.length ≤ n →
    okBlank b (blankRun b l) = true := by
  intro n
  induction n with
  | zero =>
    intro b l hn
    have hl : l = [] := List.length_eq_zero.mp (Nat.le_zero.mp hn)
    subst hl
    rw [blankRun_nil]
    exact okBlank_nil b
  | succ n ih =>
    intro b l hn
    cases l with
    | nil => rw [blankRun_nil]; exact okBlank_nil b
    | cons c rest =>
      simp only [List.length_cons] at hn
      cases b with
      | false =>
        rw [blankRun_false]
        cases hX : blankRun (isLineTerm c) rest with
        | nil => rw [okBlank_false, ← hX]; exact ih (isLineTerm c) rest (by omega)
        | cons d X' => rw [okBlank_false, ← hX]; exact ih (isLineTerm c) rest (by omega)
      | true =>
        cases hmb : matchBlank (c :: rest) with
        | some r =>
          rw [blankRun_true_some hmb]
          obtain ⟨-, -, -, -, hrn⟩ := matchBlank_some_decomp hmb
          have hlen := matchBlank_length hmb
          simp only [List.length_cons] at hlen
          have hXn : runNoNL (blankRun true r) = true :=
            runNoNL_blankRun n true r (by omega) hrn
          have hmbX : matchBlank (blankRun true r) = none := matchBlank_none_iff.mpr hXn
          rw [okBlank_true_some (matchBlank_nl_none hmbX)]
          simp only [decide_True, Bool.true_and]
          exact ih true r (by omega)
        | none =>
          rw [blankRun_true_none hmb]
          have hrall : runNoNL (c :: rest) = true := matchBlank_none_iff.mp hmb
          have hmbX : matchBlank (c :: blankRun (isLineTerm c) rest) = none := by
            by_cases hws : isWs c = true
            · rw [runNoNL_cons_ws hws] at hrall
              simp only [Bool.and_eq_true, Bool.not_eq_true'] at hrall
              apply matchBlank_none_iff.mpr
              exact runNoNL_cons_of hrall.1
                (runNoNL_blankRun n (isLineTerm c) rest (by omega) hrall.2)
            · simp only [Bool.not_eq_true] at hws
              exact matchBlank_not_ws hws
          rw [okBlank_true_none hmbX]
          exact ih (isLineTerm c) rest (by omega)

theorem okBlank_any {l : List Char} (hr : runNoNL l = true) (b b' : Bool) :
    okBlank b l = okBlank b' l := by
  cases l with
  | nil => rw [okBlank_nil, okBlank_nil]
  | cons c rest =>
    have hmb : matchBlank (c :: rest) = none := matchBlank_none_iff.mpr hr
    cases b <;> cases b' <;>
      simp only [okBlank_true_none hmb, okBlank_false]

theorem matchBlank_self_tail {rest : List Char} (h : matchBlank ('\n' :: rest) = some rest) :
    matchBlank rest = none := by
  cases hmb : matchBlank rest with
  | none => rfl
  | some r' =>
    rw [matchBlank_nl_some hmb] at h
    injection h with h
    subst h
    have := matchBlank_length hmb
    omega

theorem okBlank_dropWhile : ∀ (n : Nat) (l : List Char), l.length ≤ n →
    okBlank true l = true → okBlank true (l.dropWhile isWs) = true := by
  intro n
  induction n with
  | zero =>
    intro l hn _
    have hl : l = [] := List.length_eq_zero.mp (Nat.le_zero.mp hn)
    subst hl
    exact okBlank_nil true
  | succ n ih =>
    intro l hn hok
    cases l with
    | nil => exact okBlank_nil true
    | cons c rest =>
      simp only [List.length_cons] at hn
      by_cases hws : isWs c = true
      · rw [List.dropWhile_cons_of_pos (by simpa using hws)]
        cases hmb : matchBlank (c :: rest) with
        | some r =>
          rw [okBlank_true_some hmb] at hok
          simp only [Bool.and_eq_true, decide_eq_true_eq] at hok
          exact ih rest (by omega) hok.2
        | none =>
          rw [okBlank_true_none hmb] at hok
          have hrall : runNoNL (c :: rest) = true := matchBlank_none_iff.mp hmb
          rw [runNoNL_cons_ws hws] at hrall
          simp only [Bool.and_eq_true, Bool.not_eq_true'] at hrall
          rw [okBlank_any hrall.2 (isLineTerm c) true] at hok
          exact ih rest (by omega) hok
      · simp only [Bool.not_eq_true] at hws
        rw [List.dropWhile_cons_of_neg (by simp [hws])]
        exact hok

theorem okBlank_append_ws : ∀ (z v : List Char) (b : Bool), (∀ c ∈ v, isWs c = true) →
    okBlank b (z ++ v) = true → okBlank b z = true := by
  intro z
  induction z with
  | nil => intro v b _ _; exact okBlank_nil b
  | cons c z' ih =>
    intro v b hv hok
    rw [List.cons_append] at hok
    cases b with
    | false =>
      rw [okBlank_false] at hok ⊢
      exact ih v (isLineTerm c) hv hok
    | true =>
      cases hmb : matchBlank (c :: (z' ++ v)) with
      | some r =>
        rw [okBlank_true_some hmb] at hok
        simp only [Bool.and_eq_true, decide_eq_true_eq] at hok
        obtain ⟨⟨hc, hr⟩, hok⟩ := hok
        subst hc
        subst hr
        have h1 : matchBlank (z' ++ v) = none := matchBlank_self_tail hmb
        have h2 : runNoNL z' = true :=
          runNoNL_append_left (matchBlank_none_iff.mp h1)
        have h3 : matchBlank ('\n' :: z') = some z' :=
          matchBlank_nl_none (matchBlank_none_iff.mpr h2)
        rw [okBlank_true_some h3]
        simp only [decide_True, Bool.true_and]
        exact ih v true hv hok
      | none =>
        rw [okBlank_true_none hmb] at hok
        have h1 : runNoNL (c :: z') = true := by
          have := matchBlank_none_iff.mp hmb
          exact runNoNL_append_left (a := c :: z') (b := v) (by simpa using this)
        rw [okBlank_true_none (matchBlank_none_iff.mpr h1)]
        exact ih v (isLineTerm c) hv hok

theorem mem_takeWhile_ws : ∀ {l : List Char} {c : Char}, c ∈ l.takeWhile isWs → isWs c = true := by
  intro l
  induction l with
  | nil => intro c h; simp at h
  | cons d r ih =>
    intro c h
    by_cases hd : isWs d = true
    · rw [List.takeWhile_cons_of_pos (by simpa using hd)] at h
      rcases List.mem_cons.mp h with h | h
      · exact h ▸ hd
      · exact ih h
    · rw [List.takeWhile_cons_of_neg (by simpa using hd)] at h
      simp at h

theorem dropTrail_decomp (l : List Char) :
    ∃ v, l = dropTrail l ++ v ∧ ∀ c ∈ v, isWs c = true := by
  refine ⟨(l.reverse.takeWhile isWs).reverse, ?_, ?_⟩
  · conv_lhs => rw [← List.reverse_reverse l, ← List.takeWhile_append_dropWhile (p := isWs) (l := l.reverse)]
    rw [List.reverse_append]
    rfl
  · intro c hc
    exact mem_takeWhile_ws (List.mem_reverse.mp hc)

theorem okBlank_trim {l : List Char} (h : okBlank true l = true) :
    okBlank true (trimList l) = true := by
  have h1 : okBlank true (l.dropWhile isWs) = true :=
    okBlank_dropWhile l.length l le_rfl h
  obtain ⟨v, hv1, hv2⟩ := dropTrail_decomp (l.dropWhile isWs)
  rw [hv1] at h1
  exact okBlank_append_ws _ v true hv2 h1

theorem WsRed.head_compat {o i : List Char} (h : WsRed o i) {ch : Char}
    (hh : o.head? = some ch) (hne : ch ≠ '\n') : i.head? = some ch := by
  cases h with
  | nil => simp at hh
  | keep c h =>
    simp only [List.head?_cons] at hh ⊢
    exact hh
  | subst hw hws h =>
    simp only [List.head?_cons] at hh
    injection hh with hh
    exact absurd hh.symm hne

theorem WsRed.invert_cons {c : Char} {o' i : List Char} (h : WsRed (c :: o') i)
    (hne : c ≠ '\n') : ∃ i', i = c :: i' ∧ WsRed o' i' := by
  cases h with
  | keep c h => exact ⟨_, rfl, h⟩
  | subst hw hws h => exact absurd rfl hne

theorem wsred_hasDSlash {o i : List Char} (h : WsRed o i) (hd : hasDSlash o = true) :
    hasDSlash i = true := by
  induction h with
  | nil => simp [hasDSlash] at hd
  | keep c h ih =>
    simp only [hasDSlash, Bool.or_eq_true, decide_eq_true_eq] at hd
    rcases hd with ⟨hc, hh⟩ | hd
    · have := h.head_compat hh (by decide)
      simp [hasDSlash, hc, this]
    · simp [hasDSlash, ih hd]
  | subst hw hws h ih =>
    simp only [hasDSlash, Bool.or_eq_true, decide_eq_true_eq] at hd
    rcases hd with ⟨hc, -⟩ | hd
    · exact absurd hc (by decide)
    · exact hasDSlash_append_right (ih hd)

theorem wsred_hasSS {o i : List Char} (h : WsRed o i) (hd : hasSS o = true) :
    hasSS i = true := by
  induction h with
  | nil => simp [hasSS] at hd
  | keep c h ih =>
    simp only [hasSS, Bool.or_eq_true, decide_eq_true_eq] at hd
    rcases hd with ⟨hc, hh⟩ | hd
    · have := h.head_compat hh (by decide)
      simp [hasSS, hc, this]
    · simp [hasSS, ih hd]
  | subst hw hws h ih =>
    simp only [hasSS, Bool.or_eq_true, decide_eq_true_eq] at hd
    rcases hd with ⟨hc, -⟩ | hd
    · exact absurd hc (by decide)
    · exact hasSS_append_right (ih hd)

theorem wsred_hasBlock {o i : List Char} (h : WsRed o i) (hd : hasBlock o = true) :
    hasBlock i = true := by
  induction h with
  | nil => simp [hasBlock] at hd
  | keep c h ih =>
    rename_i o' i'
    simp only [hasBlock, Bool.or_eq_true, Bool.and_eq_true, decide_eq_true_eq] at hd
    rcases hd with ⟨⟨hc, hh⟩, hss⟩ | hd
    · cases o' with
      | nil => simp at hh
      | cons d o'' =>
        simp only [List.head?_cons] at hh
        injection hh with hh
        subst hh hc
        obtain ⟨i'', hi1, hrel⟩ := h.invert_cons (by decide)
        subst hi1
        simp only [List.tail_cons] at hss
        have := wsred_hasSS hrel hss
        simp [hasBlock, this]
    · simp [hasBlock, ih hd]
  | subst hw hws h ih =>
    simp only [hasBlock, Bool.or_eq_true, Bool.and_eq_true, decide_eq_true_eq] at hd
    rcases hd with ⟨⟨hc, -⟩, -⟩ | hd
    · exact absurd hc (by decide)
    · exact hasBlock_append_right (ih hd)

theorem wsred_blankRun : ∀ (n : Nat) (b : Bool) (l : List Char), l.length ≤ n →
    WsRed (blankRun b l) l := by
  intro n
  induction n with
  | zero =>
    intro b l hn
    have hl : l = [] := List.length_eq_zero.mp (Nat.le_zero.mp hn)
    subst hl
    rw [blankRun_nil]
    exact WsRed.nil
  | succ n ih =>
    intro b l hn
    cases l with
    | nil => rw [blankRun_nil]; exact WsRed.nil
    | cons c rest =>
      simp only [List.length_cons] at hn
      cases b with
      | false =>
        rw [blankRun_false]
        exact WsRed.keep c (ih (isLineTerm c) rest (by omega))
      | true =>
        cases hmb : matchBlank (c :: rest) with
        | some r =>
          rw [blankRun_true_some hmb]
          obtain ⟨w, hw1, hw2, hw3, -⟩ := matchBlank_some_decomp hmb
          have hlen := matchBlank_length hmb
          simp only [List.length_cons] at hlen
          rw [hw1]
          exact WsRed.subst hw2 hw3 (ih true r (by omega))
        | none =>
          rw [blankRun_true_none hmb]
          exact WsRed.keep c (ih (isLineTerm c) rest (by omega))

theorem mem_takeWhile_nl : ∀ {l : List Char} {c : Char},
    c ∈ l.takeWhile (· = '\n') → c = '\n' := by
  intro l
  induction l with
  | nil => intro c h; simp at h
  | cons d r ih =>
    intro c h
    by_cases hd : d = '\n'
    · rw [List.takeWhile_cons_of_pos (by simpa using hd)] at h
      rcases List.mem_cons.mp h with h | h
      · exact h.trans hd
      · exact ih h
    · rw [List.takeWhile_cons_of_neg (by simpa using hd)] at h
      simp at h

theorem wsred_collapse : ∀ (n : Nat) (l : List Char), l.length ≤ n →
    WsRed (collapseNewlines l) l := by
  intro n
  induction n with
  | zero =>
    intro l hn
    have hl : l = [] := List.length_eq_zero.mp (Nat.le_zero.mp hn)
    subst hl
    rw [collapseNewlines_nil]
    exact WsRed.nil
  | succ n ih =>
    intro l hn
    cases l with
    | nil => rw [collapseNewlines_nil]; exact WsRed.nil
    | cons c rest =>
      simp only [List.length_cons] at hn
      by_cases hc : c = '\n' ∧ rest.head? = some '\n' ∧ rest.tail.head? = some '\n'
      · obtain ⟨hc1, hc2, hc3⟩ := hc
        subst hc1
        rw [collapseNewlines_triple hc2 hc3]
        have hne : rest.takeWhile (· = '\n') ≠ [] := by
          cases rest with
          | nil => simp at hc2
          | cons d r2 =>
            simp only [List.head?_cons] at hc2
            injection hc2 with hd
            subst hd
            rw [List.takeWhile_cons_of_pos (by simp)]
            simp
        have hws : ∀ ch ∈ rest.takeWhile (· = '\n'), isWs ch = true := by
          intro ch hch
          rw [mem_takeWhile_nl hch]
          decide
        have hdlen : (rest.dropWhile (· = '\n')).length ≤ rest.length :=
          (List.dropWhile_sublist _).length_le
        have hsub : WsRed ('\n' :: collapseNewlines (rest.dropWhile (· = '\n')))
            (rest.takeWhile (· = '\n') ++ rest.dropWhile (· = '\n')) :=
          WsRed.subst hne hws (ih (rest.dropWhile (· = '\n')) (by omega))
        rw [List.takeWhile_append_dropWhile] at hsub
        exact WsRed.keep '\n' hsub
      · rw [collapseNewlines_other hc]
        exact WsRed.keep c (ih rest (by omega))

/-! ## Closure of the patterns under trimming -/

theorem hasBlock_append_left {a : List Char} (b : List Char) (h : hasBlock a = true) :
    hasBlock (a ++ b) = true := by
  induction a with
  | nil => simp [hasBlock] at h
  | cons c r ih =>
    simp only [hasBlock, Bool.or_eq_true, Bool.and_eq_true, decide_eq_true_eq] at h ⊢
    rcases h with ⟨⟨hc, hh⟩, hss⟩ | h
    · cases r with
      | nil => simp at hh
      | cons d r2 =>
        simp only [List.head?_cons] at hh
        refine Or.inl ⟨⟨hc, by simpa using hh⟩, ?_⟩
        simp only [List.tail_cons] at hss
        simpa [List.cons_append] using hasSS_append_left b hss
    · exact Or.inr (ih h)

theorem trimList_decomp (l : List Char) :
    ∃ u v, l = u ++ trimList l ++ v ∧ (∀ c ∈ u, isWs c = true) ∧ (∀ c ∈ v, isWs c = true) := by
  obtain ⟨v, hv1, hv2⟩ := dropTrail_decomp (l.dropWhile isWs)
  refine ⟨l.takeWhile isWs, v, ?_, fun c hc => mem_takeWhile_ws hc, hv2⟩
  conv_lhs => rw [← List.takeWhile_append_dropWhile (p := isWs) (l := l)]
  rw [hv1]
  simp [trimList, List.append_assoc]

theorem hasDSlash_trim {l : List Char} (h : hasDSlash (trimList l) = true) :
    hasDSlash l = true := by
  obtain ⟨u, v, hl, -, -⟩ := trimList_decomp l
  rw [hl, List.append_assoc]
  exact hasDSlash_append_right (hasDSlash_append_left v h)

theorem hasBlock_trim {l : List Char} (h : hasBlock (trimList l) = true) :
    hasBlock l = true := by
  obtain ⟨u, v, hl, -, -⟩ := trimList_decomp l
  rw [hl, List.append_assoc]
  exact hasBlock_append_right (hasBlock_append_left v h)

theorem hasTriple_trim {l : List Char} (h : hasTriple (trimList l) = true) :
    hasTriple l = true := by
  obtain ⟨u, v, hl, -, -⟩ := trimList_decomp l
  rw [hl, List.append_assoc]
  exact hasTriple_append_right (hasTriple_append_left v h)

/-! ## Output properties of passes 1 and 2

Pass 1 removes every `//`; pass 2 then removes every complete block
comment without ever creating a new `//`, `/*` or `*/` adjacency (which
would require a `//` in its input). -/

theorem hasDSlash_suffix_of {u v : List Char} (h : hasDSlash (u ++ v) = false) :
    hasDSlash v = false := by
  cases hv : hasDSlash v with
  | false => rfl
  | true => rw [hasDSlash_append_right hv] at h; cases h

theorem lineRun_true_head : ∀ (n : Nat) (l : List Char), l.length ≤ n → ∀ ch,
    (lineRun true l).head? = some ch → isLineTerm ch = true := by
  intro n
  induction n with
  | zero =>
    intro l hn ch hh
    have hl : l = [] := List.length_eq_zero.mp (Nat.le_zero.mp hn)
    subst hl
    rw [lineRun_nil] at hh
    simp at hh
  | succ n ih =>
    intro l hn ch hh
    cases l with
    | nil => rw [lineRun_nil] at hh; simp at hh
    | cons c rest =>
      simp only [List.length_cons] at hn
      by_cases hterm : isLineTerm c = true
      · rw [lineRun_true_term hterm] at hh
        simp only [List.head?_cons] at hh
        injection hh with hh
        exact hh ▸ hterm
      · simp only [Bool.not_eq_true] at hterm
        rw [lineRun_true_skip hterm] at hh
        exact ih rest (by omega) ch hh

theorem lineRun_false_head : ∀ (n : Nat) (l : List Char), l.length ≤ n → ∀ ch,
    (lineRun false l).head? = some ch → l.head? = some ch ∨ isLineTerm ch = true := by
  intro n
  induction n with
  | zero =>
    intro l hn ch hh
    have hl : l = [] := List.length_eq_zero.mp (Nat.le_zero.mp hn)
    subst hl
    rw [lineRun_nil] at hh
    simp at hh
  | succ n ih =>
    intro l hn ch hh
    cases l with
    | nil => rw [lineRun_nil] at hh; simp at hh
    | cons c rest =>
      simp only [List.length_cons] at hn
      by_cases hc : c = '/' ∧ rest.head? = some '/'
      · obtain ⟨hc1, hc2⟩ := hc
        subst hc1
        cases rest with
        | nil => simp at hc2
        | cons d r2 =>
          simp only [List.head?_cons] at hc2
          injection hc2 with hd
          subst hd
          rw [lineRun_false_dslash] at hh
          exact Or.inr (lineRun_true_head n r2 (by simp at hn; omega) ch hh)
      · rw [lineRun_false_other hc] at hh
        simp only [List.head?_cons] at hh
        exact Or.inl hh

theorem hasDSlash_lineRun : ∀ (n : Nat) (b : Bool) (l : List Char), l.length ≤ n →
    hasDSlash (lineRun b l) = false := by
  intro n
  induction n with
  | zero =>
    intro b l hn
    have hl : l = [] := List.length_eq_zero.mp (Nat.le_zero.mp hn)
    subst hl
    rw [lineRun_nil]
    rfl
  | succ n ih =>
    intro b l hn
    cases l with
    | nil => rw [lineRun_nil]; rfl
    | cons c rest =>
      simp only [List.length_cons] at hn
      cases b with
      | true =>
        by_cases hterm : isLineTerm c = true
        · rw [lineRun_true_term hterm]
          simp only [hasDSlash, Bool.or_eq_false_iff]
          refine ⟨decide_eq_false ?_, ih false rest (by omega)⟩
          rintro ⟨hc, -⟩
          subst hc
          exact absurd hterm (by decide)
        · simp only [Bool.not_eq_true] at hterm
          rw [lineRun_true_skip hterm]
          exact ih true rest (by omega)
      | false =>
        by_cases hc : c = '/' ∧ rest.head? = some '/'
        · obtain ⟨hc1, hc2⟩ := hc
          subst hc1
          cases rest with
          | nil => simp at hc2
          | cons d r2 =>
            simp only [List.head?_cons] at hc2
            injection hc2 with hd
            subst hd
            rw [lineRun_false_dslash]
            exact ih true r2 (by simp at hn; omega)
        · rw [lineRun_false_other hc]
          simp only [hasDSlash, Bool.or_eq_false_iff]
          refine ⟨decide_eq_false ?_, ih false rest (by omega)⟩
          rintro ⟨hc1, hh⟩
          rcases lineRun_false_head n rest (by omega) '/' hh with h | h
          · exact hc ⟨hc1, h⟩
          · exact absurd h (by decide)

theorem stripLineComments_noDSlash (l : List Char) :
    hasDSlash (stripLineComments l) = false :=
  hasDSlash_lineRun l.length false l le_rfl

theorem stripBlockComments_head_slash {l : List Char}
    (h : (stripBlockComments l).head? = some '/') : l.head? = some '/' := by
  cases l with
  | nil => rw [stripBlockComments_nil] at h; simp at h
  | cons c rest =>
    by_cases hc : c = '/' ∧ rest.head? = some '*'
    · simp [hc.1]
    · rw [stripBlockComments_cons_other hc] at h
      simp only [List.head?_cons] at h ⊢
      exact h

theorem hasSS_stripBlockComments : ∀ (n : Nat) (l : List Char), l.length ≤ n →
    hasDSlash l = false → hasSS l = false → hasSS (stripBlockComments l) = false := by
  intro n
  induction n with
  | zero =>
    intro l hn _ _
    have hl : l = [] := List.length_eq_zero.mp (Nat.le_zero.mp hn)
    subst hl
    rfl
  | succ n ih =>
    intro l hn hd hss
    cases l with
    | nil => rfl
    | cons c rest =>
      simp only [List.length_cons] at hn
      simp only [hasDSlash, Bool.or_eq_false_iff, decide_eq_false_iff_not] at hd
      simp only [hasSS, Bool.or_eq_false_iff, decide_eq_false_iff_not] at hss
      by_cases hc : c = '/' ∧ rest.head? = some '*'
      · obtain ⟨hc1, hc2⟩ := hc
        subst hc1
        cases rest with
        | nil => simp at hc2
        | cons d r2 =>
          simp only [List.head?_cons] at hc2
          injection hc2 with hdd
          subst hdd
          simp only [List.length_cons] at hn
          have hss2 : hasSS r2 = false := by
            have := hss.2
            simp only [hasSS, Bool.or_eq_false_iff] at this
            exact this.2
          have hd2 : hasDSlash r2 = false := by
            have := hd.2
            simp only [hasDSlash, Bool.or_eq_false_iff] at this
            exact this.2
          rw [stripBlockComments_cons_none (findClose_none_iff.mpr hss2)]
          rw [stripBlockComments_cons_other (by rintro ⟨h, -⟩; exact absurd h (by decide))]
          simp only [hasSS, Bool.or_eq_false_iff, decide_eq_false_iff_not]
          refine ⟨?_, ?_, ih r2 (by omega) hd2 hss2⟩
          · rintro ⟨h, -⟩
            exact absurd h (by decide)
          · rintro ⟨-, hh⟩
            have := stripBlockComments_head_slash hh
            have hssrest := hss.2
            simp only [hasSS, Bool.or_eq_false_iff, decide_eq_false_iff_not] at hssrest
            exact hssrest.1 ⟨by trivial, this⟩
      · rw [stripBlockComments_cons_other hc]
        simp only [hasSS, Bool.or_eq_false_iff, decide_eq_false_iff_not]
        refine ⟨?_, ih rest (by omega) hd.2 hss.2⟩
        rintro ⟨hc1, hh⟩
        exact hss.1 ⟨hc1, stripBlockComments_head_slash hh⟩

theorem hasDSlash_stripBlockComments : ∀ (n : Nat) (l : List Char), l.length ≤ n →
    hasDSlash l = false → hasDSlash (stripBlockComments l) = false := by
  intro n
  induction n with
  | zero =>
    intro l hn _
    have hl : l = [] := List.length_eq_zero.mp (Nat.le_zero.mp hn)
    subst hl
    rfl
  | succ n ih =>
    intro l hn hd
    cases l with
    | nil => rfl
    | cons c rest =>
      simp only [List.length_cons] at hn
      simp only [hasDSlash, Bool.or_eq_false_iff, decide_eq_false_iff_not] at hd
      by_cases hc : c = '/' ∧ rest.head? = some '*'
      · obtain ⟨hc1, hc2⟩ := hc
        subst hc1
        cases rest with
        | nil => simp at hc2
        | cons d r2 =>
          simp only [List.head?_cons] at hc2
          injection hc2 with hdd
          subst hdd
          simp only [List.length_cons] at hn
          have hd2 : hasDSlash r2 = false := by
            have := hd.2
            simp only [hasDSlash, Bool.or_eq_false_iff] at this
            exact this.2
          cases hf : findClose r2 with
          | some r' =>
            rw [stripBlockComments_cons_some hf]
            obtain ⟨a, ha⟩ := findClose_some_decomp hf
            have hdr : hasDSlash r' = false := by
              apply hasDSlash_suffix_of (u := '/' :: '*' :: a ++ ['*', '/'])
              have : ('/' : Char) :: '*' :: a ++ ['*', '/'] ++ r' = '/' :: '*' :: (a ++ '*' :: '/' :: r') := by
                simp
              rw [this, ← ha]
              exact Bool.or_eq_false_iff.mpr ⟨by simpa using hd.1, hd.2⟩
            have hlen := findClose_length hf
            exact ih r' (by omega) hdr
          | none =>
            rw [stripBlockComments_cons_none hf]
            rw [stripBlockComments_cons_other (by rintro ⟨h, -⟩; exact absurd h (by decide))]
            simp only [hasDSlash, Bool.or_eq_false_iff, decide_eq_false_iff_not]
            refine ⟨?_, ?_, ih r2 (by omega) hd2⟩
            · rintro ⟨-, hh⟩
              simp only [List.head?_cons] at hh
              injection hh with hh
              exact absurd hh (by decide)
            · rintro ⟨h, -⟩
              exact absurd h (by decide)
      · rw [stripBlockComments_cons_other hc]
        simp only [hasDSlash, Bool.or_eq_false_iff, decide_eq_false_iff_not]
        refine ⟨?_, ih rest (by omega) hd.2⟩
        rintro ⟨hc1, hh⟩
        exact hd.1 ⟨hc1, stripBlockComments_head_slash hh⟩

theorem hasBlock_stripBlockComments : ∀ (n : Nat) (l : List Char), l.length ≤ n →
    hasDSlash l = false → hasBlock (stripBlockComments l) = false := by
  intro n
  induction n with
  | zero =>
    intro l hn _
    have hl : l = [] := List.length_eq_zero.mp (Nat.le_zero.mp hn)
    subst hl
    rfl
  | succ n ih =>
    intro l hn hd
    cases l with
    | nil => rfl
    | cons c rest =>
      simp only [List.length_cons] at hn
      simp only [hasDSlash, Bool.or_eq_false_iff, decide_eq_false_iff_not] at hd
      by_cases hc : c = '/' ∧ rest.head? = some '*'
      · obtain ⟨hc1, hc2⟩ := hc
        subst hc1
        cases rest with
        | nil => simp at hc2
        | cons d r2 =>
          simp only [List.head?_cons] at hc2
          injection hc2 with hdd
          subst hdd
          simp only [List.length_cons] at hn
          have hd2 : hasDSlash r2 = false := by
            have := hd.2
            simp only [hasDSlash, Bool.or_eq_false_iff] at this
            exact this.2
          cases hf : findClose r2 with
          | some r' =>
            rw [stripBlockComments_cons_some hf]
            obtain ⟨a, ha⟩ := findClose_some_decomp hf
            have hdr : hasDSlash r' = false := by
              apply hasDSlash_suffix_of (u := '/' :: '*' :: a ++ ['*', '/'])
              have : ('/' : Char) :: '*' :: a ++ ['*', '/'] ++ r' = '/' :: '*' :: (a ++ '*' :: '/' :: r') := by
                simp
              rw [this, ← ha]
              exact Bool.or_eq_false_iff.mpr ⟨by simpa using hd.1, hd.2⟩
            have hlen := findClose_length hf
            exact ih r' (by omega) hdr
          | none =>
            rw [stripBlockComments_cons_none hf]
            rw [stripBlockComments_cons_other (by rintro ⟨h, -⟩; exact absurd h (by decide))]
            have hss2 : hasSS r2 = false := findClose_none_iff.mp hf
            simp only [hasBlock, Bool.or_eq_false_iff, Bool.and_eq_false_iff,
              decide_eq_false_iff_not]
            refine ⟨Or.inr ?_, Or.inl ?_, ih r2 (by omega) hd2⟩
            · simp only [List.tail_cons]
              exact hasSS_stripBlockComments n r2 (by omega) hd2 hss2
            · rintro ⟨h, -⟩
              exact absurd h (by decide)
      · rw [stripBlockComments_cons_other hc]
        simp only [hasBlock, Bool.or_eq_false_iff, Bool.and_eq_false_iff,
          decide_eq_false_iff_not]
        refine ⟨Or.inl ?_, ih rest (by omega) hd.2⟩
        rintro ⟨hc1, hh⟩
        subst hc1
        cases rest with
        | nil => rw [stripBlockComments_nil] at hh; simp at hh
        | cons d r2 =>
          by_cases hd2c : d = '/' ∧ r2.head? = some '*'
          · exact hd.1 ⟨rfl, by simp [hd2c.1]⟩
          · rw [stripBlockComments_cons_other hd2c] at hh
            simp only [List.head?_cons] at hh
            injection hh with hh
            exact hc ⟨rfl, by simp [hh]⟩

/-! ## Idempotence of trimming -/

theorem dropWhile_head_not_ws : ∀ {l : List Char} {c : Char},
    (l.dropWhile isWs).head? = some c → isWs c = false := by
  intro l
  induction l with
  | nil => intro c h; simp at h
  | cons d r ih =>
    intro c h
    by_cases hd : isWs d = true
    · rw [List.dropWhile_cons_of_pos (by simpa using hd)] at h
      exact ih h
    · simp only [Bool.not_eq_true] at hd
      rw [List.dropWhile_cons_of_neg (by simp [hd])] at h
      simp only [List.head?_cons] at h
      injection h with h
      exact h ▸ hd

theorem dropWhile_ws_eq_self {l : List Char} (h : ∀ c, l.head? = some c → isWs c = false) :
    l.dropWhile isWs = l := by
  cases l with
  | nil => rfl
  | cons c r => rw [List.dropWhile_cons_of_neg (by simp [h c rfl])]

theorem dropWhile_ws_idem (l : List Char) :
    (l.dropWhile isWs).dropWhile isWs = l.dropWhile isWs :=
  dropWhile_ws_eq_self (fun _ h => dropWhile_head_not_ws h)

theorem dropTrail_idem (l : List Char) : dropTrail (dropTrail l) = dropTrail l := by
  unfold dropTrail
  rw [List.reverse_reverse, dropWhile_ws_idem]

theorem dropTrail_head? {l : List Char} {c : Char} (h : (dropTrail l).head? = some c) :
    l.head? = some c := by
  obtain ⟨v, hv, -⟩ := dropTrail_decomp l
  rw [hv, head?_append_of_ne_nil]
  · exact h
  · intro hnil
    rw [hnil] at h
    simp at h

theorem trimList_idem (l : List Char) : trimList (trimList l) = trimList l := by
  show dropTrail ((dropTrail (l.dropWhile isWs)).dropWhile isWs) = dropTrail (l.dropWhile isWs)
  have h1 : (dropTrail (l.dropWhile isWs)).dropWhile isWs = dropTrail (l.dropWhile isWs) :=
    dropWhile_ws_eq_self (fun _ h => dropWhile_head_not_ws (dropTrail_head? h))
  rw [h1, dropTrail_idem]

/-! ## Idempotence of `cleanCode` -/

theorem cleanCodeL_idem (l : List Char) : cleanCodeL (cleanCodeL l) = cleanCodeL l := by
  have hslc := stripLineComments_noDSlash l
  have hDy : hasDSlash (stripBlockComments (stripLineComments l)) = false :=
    hasDSlash_stripBlockComments _ _ le_rfl hslc
  have hBy : hasBlock (stripBlockComments (stripLineComments l)) = false :=
    hasBlock_stripBlockComments _ _ le_rfl hslc
  have hrel : WsRed (squeezeBlankLines (stripBlockComments (stripLineComments l)))
      (stripBlockComments (stripLineComments l)) := by
    rw [squeezeBlankLines_eq]
    exact wsred_blankRun _ true _ le_rfl
  have hTz : hasTriple (squeezeBlankLines (stripBlockComments (stripLineComments l))) = false := by
    rw [squeezeBlankLines_eq]
    exact hasTriple_blankRun _ true _ le_rfl
  have hOKz : okBlank true (squeezeBlankLines (stripBlockComments (stripLineComments l))) = true := by
    rw [squeezeBlankLines_eq]
    exact okBlank_blankRun _ true _ le_rfl
  have hDz : hasDSlash (squeezeBlankLines (stripBlockComments (stripLineComments l))) = false := by
    cases hq : hasDSlash (squeezeBlankLines (stripBlockComments (stripLineComments l))) with
    | false => rfl
    | true =>
      have := wsred_hasDSlash hrel hq
      rw [hDy] at this
      cases this
  have hBz : hasBlock (squeezeBlankLines (stripBlockComments (stripLineComments l))) = false := by
    cases hq : hasBlock (squeezeBlankLines (stripBlockComments (stripLineComments l))) with
    | false => rfl
    | true =>
      have := wsred_hasBlock hrel hq
      rw [hBy] at this
      cases this
  have hcz : collapseNewlines (squeezeBlankLines (stripBlockComments (stripLineComments l))) =
      squeezeBlankLines (stripBlockComments (stripLineComments l)) :=
    collapseNewlines_fix _ _ le_rfl hTz
  have hclean : cleanCodeL l =
      trimList (squeezeBlankLines (stripBlockComments (stripLineComments l))) := by
    unfold cleanCodeL
    rw [hcz]
  have hDR : hasDSlash (cleanCodeL l) = false := by
    rw [hclean]
    cases hq : hasDSlash (trimList (squeezeBlankLines (stripBlockComments (stripLineComments l)))) with
    | false => rfl
    | true =>
      have := hasDSlash_trim hq
      rw [hDz] at this
      cases this
  have hBR : hasBlock (cleanCodeL l) = false := by
    rw [hclean]
    cases hq : hasBlock (trimList (squeezeBlankLines (stripBlockComments (stripLineComments l)))) with
    | false => rfl
    | true =>
      have := hasBlock_trim hq
      rw [hBz] at this
      cases this
  have hTR : hasTriple (cleanCodeL l) = false := by
    rw [hclean]
    cases hq : hasTriple (trimList (squeezeBlankLines (stripBlockComments (stripLineComments l)))) with
    | false => rfl
    | true =>
      have := hasTriple_trim hq
      rw [hTz] at this
      cases this
  have hOKR : okBlank true (cleanCodeL l) = true := by
    rw [hclean]
    exact okBlank_trim hOKz
  have h1 : stripLineComments (cleanCodeL l) = cleanCodeL l := stripLineComments_fix hDR
  have h2 : stripBlockComments (cleanCodeL l) = cleanCodeL l :=
    stripBlockComments_fix _ _ le_rfl hBR
  have h3 : squeezeBlankLines (cleanCodeL l) = cleanCodeL l := by
    rw [squeezeBlankLines_eq]
    exact okBlank_fix _ true _ le_rfl hOKR
  have h4 : collapseNewlines (cleanCodeL l) = cleanCodeL l :=
    collapseNewlines_fix _ _ le_rfl hTR
  have h5 : trimList (cleanCodeL l) = cleanCodeL l := by
    rw [hclean]
    exact trimList_idem _
  show trimList (collapseNewlines (squeezeBlankLines (stripBlockComments (stripLineComments (cleanCodeL l))))) = cleanCodeL l
  rw [h1, h2, h3, h4, h5]

/-- Claim C10: `cleanCode` is idempotent — for every input string,
cleaning an already cleaned snippet (line- and block-comment removal,
blank-line normalisation, newline collapsing, trimming) never changes
it. -/
theorem claim_C10 (s : String) : cleanCode (cleanCode s) = cleanCode s :=
  congrArg String.mk (cleanCodeL_idem s.data)

/-! ## Behaviour of the request helper -/

theorem apiRequest_no_key (send : GenCall → Option String) (call : GenCall) :
    apiRequest none send call = ([], .error .apiKeyMissing) := rfl

theorem apiRequest_no_text {k : String} (hk : k ≠ "") (send : GenCall → Option String)
    {call : GenCall} (h : send call = none) :
    apiRequest (some k) send call = ([call], .error .noResponse) := by
  simp [apiRequest, getClient, hk, h]

theorem apiRequest_empty_text {k : String} (hk : k ≠ "") (send : GenCall → Option String)
    {call : GenCall} (h : send call = some "") :
    apiRequest (some k) send call = ([call], .error .noResponse) := by
  simp [apiRequest, getClient, hk, h]

theorem apiRequest_ok {k text : String} (hk : k ≠ "") (send : GenCall → Option String)
    {call : GenCall} (h : send call = some text) (ht : text ≠ "") :
    apiRequest (some k) send call = ([call], .ok text) := by
  simp [apiRequest, getClient, hk, h, ht]

theorem apiRequest_calls {k : String} (hk : k ≠ "") (send : GenCall → Option String)
    (call : GenCall) : (apiRequest (some k) send call).1 = [call] := by
  cases h : send call with
  | none => rw [apiRequest_no_text hk send h]
  | some t =>
    by_cases ht : t = ""
    · subst ht
      rw [apiRequest_empty_text hk send h]
    · rw [apiRequest_ok hk send h ht]

theorem generateQuestion_calls_eq (apiKey : Option String) (send : GenCall → Option String)
    (parseQuestion : String → Option RawQuestion) (config : QuizConfig) :
    (generateQuestion apiKey send parseQuestion config).1 =
      (apiRequest apiKey send (questionCall config)).1 := by
  unfold generateQuestion
  cases h : apiRequest apiKey send (questionCall config) with
  | mk calls res =>
    cases res with
    | error e => rfl
    | ok text => cases hp : parseQuestion text <;> simp [hp]

theorem simulateJavaCode_calls_eq (apiKey : Option String) (send : GenCall → Option String)
    (parseSimulation : String → Option SimulationResult) (userCode : String)
    (q : GeneratedQuestion) (language : String) :
    (simulateJavaCode apiKey send parseSimulation userCode q language).1 =
      (apiRequest apiKey send (simulationCall userCode q language)).1 := by
  unfold simulateJavaCode
  cases h : apiRequest apiKey send (simulationCall userCode q language) with
  | mk calls res =>
    cases res with
    | error e => rfl
    | ok text => cases hp : parseSimulation text <;> simp [hp]

theorem gradeExam_calls_eq (apiKey : Option String) (send : GenCall → Option String)
    (parseExam : String → Option ExamResult) (userCode : String)
    (q : GeneratedQuestion) (t a : Nat) (language : String) :
    (gradeExam apiKey send parseExam userCode q t a language).1 =
      (apiRequest apiKey send (examCall userCode q t a language)).1 := by
  unfold gradeExam
  cases h : apiRequest apiKey send (examCall userCode q t a language) with
  | mk calls res =>
    cases res with
    | error e => rfl
    | ok text => cases hp : parseExam text <;> simp [hp]

/-- Claim C3: all grading and execution-simulation logic lives outside the
codebase — whenever the response text parses as JSON, `simulateJavaCode`
and `gradeExam` return exactly the parsed value as the
`SimulationResult` / `ExamResult` with no local recomputation, clamping
or validation, so a grade outside 2–6 or a score outside 0–100 is
returned unchanged. -/
theorem claim_C3 (k : String) (send : GenCall → Option String)
    (parseSimulation : String → Option SimulationResult)
    (parseExam : String → Option ExamResult)
    (userCode : String) (q : GeneratedQuestion) (t a : Nat) (language : String)
    (hk : k ≠ "") :
    (∀ text r, send (simulationCall userCode q language) = some text → text ≠ "" →
      parseSimulation text = some r →
      (simulateJavaCode (some k) send parseSimulation userCode q language).2 = .ok r) ∧
    (∀ text r, send (examCall userCode q t a language) = some text → text ≠ "" →
      parseExam text = some r →
      (gradeExam (some k) send parseExam userCode q t a language).2 = .ok r) := by
  constructor
  · intro text r hs ht hp
    unfold simulateJavaCode
    rw [apiRequest_ok hk send hs ht]
    simp [hp]
  · intro text r hs ht hp
    unfold gradeExam
    rw [apiRequest_ok hk send hs ht]
    simp [hp]

theorem claim_C3_witness :
    (gradeExam (some "key") (fun _ => some "resp") (fun _ => some outOfRangeExam)
      "code" sampleQuestion 10 2 "English").2 = .ok outOfRangeExam ∧
    outOfRangeExam.grade = 7 ∧ outOfRangeExam.styleScore = 150 := by
  refine ⟨?_, rfl, rfl⟩
  exact (claim_C3 "key" (fun _ => some "resp") (fun _ => none) (fun _ => some outOfRangeExam)
    "code" sampleQuestion 10 2 "English" (by decide)).2 "resp" outOfRangeExam rfl (by decide) rfl

/-- Claim C7: each of `generateQuestion`, `simulateJavaCode` and `gradeExam`
throws "API Key not found in environment" when the API key is unset,
throws "No response from Gemini" when the response text is empty or
absent, and otherwise returns a result exactly when the response text is
valid JSON. -/
theorem claim_C7 (send : GenCall → Option String)
    (parseQuestion : String → Option RawQuestion)
    (parseSimulation : String → Option SimulationResult)
    (parseExam : String → Option ExamResult)
    (config : QuizConfig) (userCode : String) (q : GeneratedQuestion)
    (t a : Nat) (language : String) :
    ((generateQuestion none send parseQuestion config).2 = .error .apiKeyMissing ∧
     (simulateJavaCode none send parseSimulation userCode q language).2 = .error .apiKeyMissing ∧
     (gradeExam none send parseExam userCode q t a language).2 = .error .apiKeyMissing ∧
     GemError.message .apiKeyMissing = some "API Key not found in environment") ∧
    (∀ k, k ≠ "" →
      ∀ call, send call = none ∨ send call = some "" →
        apiRequest (some k) send call = ([call], .error .noResponse)) ∧
    GemError.message .noResponse = some "No response from Gemini" ∧
    (∀ k text, k ≠ "" → send (questionCall config) = some text → text ≠ "" →
      ((∃ g, (generateQuestion (some k) send parseQuestion config).2 = .ok g) ↔
        (parseQuestion text).isSome = true)) ∧
    (∀ k text, k ≠ "" → send (simulationCall userCode q language) = some text → text ≠ "" →
      ((∃ r, (simulateJavaCode (some k) send parseSimulation userCode q language).2 = .ok r) ↔
        (parseSimulation text).isSome = true)) ∧
    (∀ k text, k ≠ "" → send (examCall userCode q t a language) = some text → text ≠ "" →
      ((∃ r, (gradeExam (some k) send parseExam userCode q t a language).2 = .ok r) ↔
        (parseExam text).isSome = true)) := by
  refine ⟨⟨rfl, rfl, rfl, rfl⟩, ?_, rfl, ?_, ?_, ?_⟩
  · intro k hk call hcall
    rcases hcall with h | h
    · exact apiRequest_no_text hk send h
    · exact apiRequest_empty_text hk send h
  · intro k text hk hs ht
    unfold generateQuestion
    rw [apiRequest_ok hk send hs ht]
    cases hp : parseQuestion text with
    | none => simp [hp]
    | some d => simp [hp]
  · intro k text hk hs ht
    unfold simulateJavaCode
    rw [apiRequest_ok hk send hs ht]
    cases hp : parseSimulation text with
    | none => simp [hp]
    | some r => simp [hp]
  · intro k text hk hs ht
    unfold gradeExam
    rw [apiRequest_ok hk send hs ht]
    cases hp : parseExam text with
    | none => simp [hp]
    | some r => simp [hp]

theorem claim_C7_witness :
    (simulateJavaCode none (fun _ => some "resp") (fun _ => none)
      "code" sampleQuestion "English").2 = .error .apiKeyMissing ∧
    GemError.message .noResponse = some "No response from Gemini" := by
  have h := claim_C7 (fun _ => some "resp") (fun _ => none) (fun _ => none) (fun _ => none)
    { difficulty := .beginner, topic := .variables, taskType := .fillInBlank,
      language := .english } "code" sampleQuestion 10 2 "English"
  exact ⟨h.1.2.1, h.2.2.1⟩

/-- Claim C8: for every config and every successfully parsed response,
`generateQuestion` returns a question with
`initialCode = codeSnippet = cleanCode (parsed codeSnippet)` — the
displayed snippet and the reset baseline are the same comment-stripped
text — while title, instructions, solution and explanation are passed
through from the parsed response unchanged. -/
theorem claim_C8 (k : String) (send : GenCall → Option String)
    (parseQuestion : String → Option RawQuestion) (config : QuizConfig)
    (text : String) (data : RawQuestion) (hk : k ≠ "")
    (hs : send (questionCall config) = some text) (ht : text ≠ "")
    (hp : parseQuestion text = some data) :
    ∃ g, (generateQuestion (some k) send parseQuestion config).2 = .ok g ∧
      g.initialCode = g.codeSnippet ∧
      g.codeSnippet = cleanCode data.codeSnippet ∧
      g.title = data.title ∧ g.instructions = data.instructions ∧
      g.solution = data.solution ∧ g.explanation = data.explanation := by
  refine ⟨{ title := data.title, instructions := data.instructions,
            codeSnippet := cleanCode data.codeSnippet,
            initialCode := cleanCode data.codeSnippet,
            solution := data.solution, explanation := data.explanation },
          ?_, rfl, rfl, rfl, rfl, rfl, rfl⟩
  unfold generateQuestion
  rw [apiRequest_ok hk send hs ht]
  simp [hp]

theorem claim_C8_witness :
    ∃ g, (generateQuestion (some "key") (fun _ => some "resp")
        (fun _ => some rawWithTrailingComment)
        { difficulty := .beginner, topic := .variables, taskType := .fillInBlank,
          language := .english }).2 = .ok g ∧
      g.initialCode = g.codeSnippet ∧ g.codeSnippet = "int y = 2;" := by
  obtain ⟨g, h1, h2, h3, -⟩ := claim_C8 "key" (fun _ => some "resp")
    (fun _ => some rawWithTrailingComment)
    { difficulty := .beginner, topic := .variables, taskType := .fillInBlank,
      language := .english } "resp" rawWithTrailingComment (by decide) rfl (by decide) rfl
  refine ⟨g, h1, h2, ?_⟩
  rw [h3]
  decide

/-- Claim C2 counterexample: the three operations do not all return the
JSON-parsed response text as-is — when the parsed codeSnippet carries a
comment, `generateQuestion` returns a value whose codeSnippet differs
from the parsed one (and carries an extra initialCode field). -/
theorem claim_C2_counterexample :
    (generateQuestion (some "key") (fun _ => some "resp") (fun _ => some rawC2)
      sampleConfig).2 =
      .ok { title := "T", instructions := "I", codeSnippet := "int x = 1;",
            initialCode := "int x = 1;", solution := "S", explanation := "E" } ∧
    rawC2.codeSnippet ≠ "int x = 1;" :=
  ⟨rfl, by decide⟩

/-- Claim C2 (amended): the repository's three LLM API operations are
`generateQuestion`, `simulateJavaCode` and `gradeExam`; each constructs a
single prompt string and a fixed JSON response schema, issues exactly
one generateContent call (and none when the API key is missing), and on
success returns the JSON-parsed response text — verbatim for
`simulateJavaCode` and `gradeExam`, and with codeSnippet normalised by
`cleanCode` and copied into initialCode for `generateQuestion`. -/
theorem claim_C2 (k : String) (send : GenCall → Option String)
    (parseQuestion : String → Option RawQuestion)
    (parseSimulation : String → Option SimulationResult)
    (parseExam : String → Option ExamResult)
    (config : QuizConfig) (userCode : String) (q : GeneratedQuestion)
    (t a : Nat) (language : String) (hk : k ≠ "") :
    ((generateQuestion (some k) send parseQuestion config).1 = [questionCall config] ∧
     (simulateJavaCode (some k) send parseSimulation userCode q language).1 =
       [simulationCall userCode q language] ∧
     (gradeExam (some k) send parseExam userCode q t a language).1 =
       [examCall userCode q t a language]) ∧
    ((generateQuestion none send parseQuestion config).1 = [] ∧
     (simulateJavaCode none send parseSimulation userCode q language).1 = [] ∧
     (gradeExam none send parseExam userCode q t a language).1 = []) ∧
    ((questionCall config).contents = generateQuestionPrompt config ∧
     (questionCall config).responseSchema = questionSchema ∧
     (simulationCall userCode q language).contents =
       simulateJavaCodePrompt userCode q language ∧
     (simulationCall userCode q language).responseSchema = simulationSchema ∧
     (examCall userCode q t a language).contents =
       gradeExamPrompt userCode q t a language ∧
     (examCall userCode q t a language).responseSchema = examSchema) ∧
    ((∀ text r, send (simulationCall userCode q language) = some text → text ≠ "" →
       parseSimulation text = some r →
       (simulateJavaCode (some k) send parseSimulation userCode q language).2 = .ok r) ∧
     (∀ text r, send (examCall userCode q t a language) = some text → text ≠ "" →
       parseExam text = some r →
       (gradeExam (some k) send parseExam userCode q t a language).2 = .ok r) ∧
     (∀ text data, send (questionCall config) = some text → text ≠ "" →
       parseQuestion text = some data →
       (generateQuestion (some k) send parseQuestion config).2 =
         .ok { title := data.title, instructions := data.instructions,
               codeSnippet := cleanCode data.codeSnippet,
               initialCode := cleanCode data.codeSnippet,
               solution := data.solution, explanation := data.explanation })) := by
  refine ⟨⟨?_, ?_, ?_⟩, ⟨?_, ?_, ?_⟩, ⟨rfl, rfl, rfl, rfl, rfl, rfl⟩, ?_, ?_, ?_⟩
  · rw [generateQuestion_calls_eq]
    exact apiRequest_calls hk send _
  · rw [simulateJavaCode_calls_eq]
    exact apiRequest_calls hk send _
  · rw [gradeExam_calls_eq]
    exact apiRequest_calls hk send _
  · rw [generateQuestion_calls_eq, apiRequest_no_key]
  · rw [simulateJavaCode_calls_eq, apiRequest_no_key]
  · rw [gradeExam_calls_eq, apiRequest_no_key]
  · intro text r hs ht hp
    unfold simulateJavaCode
    rw [apiRequest_ok hk send hs ht]
    simp [hp]
  · intro text r hs ht hp
    unfold gradeExam
    rw [apiRequest_ok hk send hs ht]
    simp [hp]
  · intro text data hs ht hp
    unfold generateQuestion
    rw [apiRequest_ok hk send hs ht]
    simp [hp]

theorem claim_C2_witness :
    (simulateJavaCode (some "key") (fun _ => some "resp") (fun _ => none)
      "code" sampleQuestion "English").1 =
      [simulationCall "code" sampleQuestion "English"] :=
  (claim_C2 "key" (fun _ => some "resp") (fun _ => none) (fun _ => none) (fun _ => none)
    sampleConfig "code" sampleQuestion 10 2 "English" (by decide)).1.2.1

/-- Claim C4 counterexample: the generated code snippet is not taken
verbatim from the response — a parsed snippet containing a block comment
is altered by `cleanCode` before it reaches the UI. -/
theorem claim_C4_counterexample :
    (generateQuestion (some "key") (fun _ => some "resp")
      (fun _ => some rawWithBlockComment) sampleConfig).2 =
      .ok { title := "B", instructions := "Fix", codeSnippet := "int z  = 3;",
            initialCode := "int z  = 3;", solution := "int z = 3;", explanation := "x" } ∧
    "int z  = 3;" ≠ rawWithBlockComment.codeSnippet :=
  ⟨rfl, by decide⟩

/-- Claim C4 (amended): there is no local parser or interpreter of Java
code; the user's code is embedded verbatim in the simulation and grading
prompts, and the only local transformation of Java source text anywhere
in the repository is `cleanCode` (comment removal, blank-line
normalisation, trimming), which `generateQuestion` applies to the
snippet parsed from the response before handing it to the UI. -/
theorem claim_C4 (k : String) (send : GenCall → Option String)
    (parseQuestion : String → Option RawQuestion) (userCode : String)
    (q : GeneratedQuestion) (t a : Nat) (language : String) (config : QuizConfig)
    (hk : k ≠ "") :
    (∃ pre post, simulateJavaCodePrompt userCode q language = pre ++ userCode ++ post) ∧
    (∃ pre post, gradeExamPrompt userCode q t a language = pre ++ userCode ++ post) ∧
    (∀ text data, send (questionCall config) = some text → text ≠ "" →
      parseQuestion text = some data →
      ∃ g, (generateQuestion (some k) send parseQuestion config).2 = .ok g ∧
        g.codeSnippet = cleanCode data.codeSnippet ∧
        g.initialCode = cleanCode data.codeSnippet) := by
  refine ⟨⟨simulateJavaCodePromptPre q, simulateJavaCodePromptPost language, rfl⟩,
          ⟨gradeExamPromptPre q, gradeExamPromptPost t a language, rfl⟩, ?_⟩
  intro text data hs ht hp
  refine ⟨{ title := data.title, instructions := data.instructions,
            codeSnippet := cleanCode data.codeSnippet,
            initialCode := cleanCode data.codeSnippet,
            solution := data.solution, explanation := data.explanation }, ?_, rfl, rfl⟩
  unfold generateQuestion
  rw [apiRequest_ok hk send hs ht]
  simp [hp]

theorem claim_C4_witness :
    ∃ pre post, simulateJavaCodePrompt "class Main" sampleQuestion "English" =
      pre ++ "class Main" ++ post :=
  (claim_C4 "key" (fun _ => some "resp") (fun _ => none) "class Main" sampleQuestion
    10 2 "English" sampleConfig (by decide)).1

/-- Claim C1 counterexample: a state with an active question and no exam
result in which a simulation request is in flight — the Run action is
disabled there, so "run is available whenever a question is active and no
exam result exists" fails on the code. -/
theorem claim_C1_counterexample :
    simulatingState.question.isSome = true ∧ simulatingState.examResult = none ∧
    runDisabled simulatingState = true :=
  ⟨rfl, rfl, rfl⟩

/-- Claim C1 (amended): the UI state follows the quiz lifecycle: from setup
(question is null) only a successful `handleStartQuiz` can install a
question; while a question is active and no exam result exists, Reset is
available and Run is available except while a simulation request is in
flight; once `handleFinishExam` stores an `ExamResult`, the editor is
read-only and the Run, Reset and Finish & Grade actions are disabled for
as long as the exam result is present. -/
theorem claim_C1 :
    (∀ (s : AppState) (a : Action), s.question = none → (step a s).question ≠ none →
      ∃ q, a = .startQuiz (.ok q)) ∧
    (∀ s : AppState, s.question.isSome = true → s.examResult = none →
      resetDisabled s = false ∧ (s.isSimulating = false → runDisabled s = false)) ∧
    (∀ (s : AppState) (r : ExamResult), s.examResult = some r →
      editorReadOnly s = true ∧ runDisabled s = true ∧ resetDisabled s = true ∧
      finishGradeDisabled s = true) := by
  refine ⟨?_, ?_, ?_⟩
  · intro s a hq hstep
    cases a with
    | startQuiz o =>
      cases o with
      | ok q => exact ⟨q, rfl⟩
      | error m => simp [step, handleStartQuiz, hq] at hstep
    | runCode o => simp [step, handleRunCode, hq] at hstep
    | finishExam o => simp [step, handleFinishExam, hq] at hstep
    | reset => simp [step, handleReset, hq] at hstep
    | backToSetup => simp [step, handleBackToSetup] at hstep
    | effectRun now =>
      simp only [step, timerEffect] at hstep
      by_cases hc : s.question.isSome = true ∧ s.examResult = none
      · rw [if_pos hc] at hstep
        exact absurd hq hstep
      · rw [if_neg hc] at hstep
        exact absurd hq hstep
    | tick =>
      simp only [step, timerTick] at hstep
      by_cases hc : s.timerCount = 0
      · rw [if_pos hc] at hstep
        exact absurd hq hstep
      · rw [if_neg hc] at hstep
        exact absurd hq hstep
  · intro s hq he
    refine ⟨?_, ?_⟩
    · simp [resetDisabled, he]
    · intro hsim
      simp [runDisabled, he, hsim]
  · intro s r he
    refine ⟨?_, ?_, ?_, ?_⟩ <;>
      simp [editorReadOnly, runDisabled, resetDisabled, finishGradeDisabled, he]

theorem claim_C1_witness :
    editorReadOnly gradedState = true ∧ runDisabled gradedState = true ∧
    resetDisabled gradedState = true ∧ finishGradeDisabled gradedState = true :=
  claim_C1.2.2 gradedState sampleExam rfl

/-- Claim C5: there is a single UI timer and no other concurrency
coordination: every transition preserves "at most one live interval";
while a question is active and no exam result exists the timer effect
(re)starts the single interval with `elapsedTime` reset to 0; each
interval tick increments `elapsedTime` by exactly 1; and the timer is
cleared whenever the question is cleared or an exam result is set —
including directly by a successful `handleFinishExam`. -/
theorem claim_C5 :
    (∀ (s : AppState) (a : Action), s.timerCount ≤ 1 → (step a s).timerCount ≤ 1) ∧
    (∀ (s : AppState) (now : Nat), s.question.isSome = true → s.examResult = none →
      (timerEffect now s).elapsedTime = 0 ∧ (timerEffect now s).timerCount = 1) ∧
    (∀ s : AppState, s.timerCount = 1 →
      (timerTick s).elapsedTime = s.elapsedTime + 1) ∧
    (∀ (s : AppState) (now : Nat), s.question = none ∨ s.examResult ≠ none →
      (timerEffect now s).timerCount = 0) ∧
    (∀ (s : AppState) (r : ExamResult), s.question.isSome = true →
      (handleFinishExam (.ok r) s).timerCount = 0) := by
  refine ⟨?_, ?_, ?_, ?_, ?_⟩
  · intro s a h
    cases a with
    | startQuiz o => cases o <;> simpa [step, handleStartQuiz] using h
    | runCode o =>
      cases hq : s.question with
      | none => simpa [step, handleRunCode, hq] using h
      | some q => cases o <;> simpa [step, handleRunCode, hq] using h
    | finishExam o =>
      cases hq : s.question with
      | none => simpa [step, handleFinishExam, hq] using h
      | some q => cases o <;> simp [step, handleFinishExam, hq, h]
    | reset =>
      cases hq : s.question with
      | none => simpa [step, handleReset, hq] using h
      | some q => simpa [step, handleReset, hq] using h
    | backToSetup => simpa [step, handleBackToSetup] using h
    | effectRun now =>
      simp only [step, timerEffect]
      by_cases hc : s.question.isSome = true ∧ s.examResult = none
      · rw [if_pos hc]
      · rw [if_neg hc]
        exact Nat.zero_le 1
    | tick =>
      by_cases hc : s.timerCount = 0
      · simpa [step, timerTick, hc] using h
      · simpa [step, timerTick, hc] using h
  · intro s now hq he
    constructor <;> simp [timerEffect, hq, he]
  · intro s h
    simp [timerTick, h]
  · intro s now h
    have hc : ¬(s.question.isSome = true ∧ s.examResult = none) := by
      rcases h with h | h
      · rintro ⟨h1, -⟩
        rw [h] at h1
        simp at h1
      · rintro ⟨-, h2⟩
        exact h h2
    simp [timerEffect, if_neg hc]
  · intro s r hq
    cases hqq : s.question with
    | none => rw [hqq] at hq; simp at hq
    | some q => simp [handleFinishExam, hqq]

theorem claim_C5_witness :
    (timerEffect 100 sampleBaseState).elapsedTime = 0 ∧
    (timerEffect 100 sampleBaseState).timerCount = 1 ∧
    (timerTick sampleBaseState).elapsedTime = 6 := by
  have h1 := claim_C5.2.1 sampleBaseState 100 rfl rfl
  have h2 := claim_C5.2.2.1 sampleBaseState rfl
  exact ⟨h1.1, h1.2, h2⟩

/-- Claim C9: when a question is active, `handleReset` sets `userCode` to
`question.initialCode`, clears `simulationResult`, and increments the
`attempts` counter by exactly 1, leaving `question`, `examResult`,
`elapsedTime` and `config` unchanged; when no question is active,
`handleReset` changes no state at all. -/
theorem claim_C9 (s : AppState) :
    (∀ q, s.question = some q →
      (handleReset s).userCode = q.initialCode ∧
      (handleReset s).simulationResult = none ∧
      (handleReset s).attempts = s.attempts + 1 ∧
      (handleReset s).question = s.question ∧
      (handleReset s).examResult = s.examResult ∧
      (handleReset s).elapsedTime = s.elapsedTime ∧
      (handleReset s).config = s.config) ∧
    (s.question = none → handleReset s = s) := by
  constructor
  · intro q hq
    refine ⟨?_, ?_, ?_, ?_, ?_, ?_, ?_⟩ <;> simp [handleReset, hq]
  · intro hq
    simp [handleReset, hq]

theorem claim_C9_witness :
    (handleReset sampleBaseState).userCode = "int x = ____;" ∧
    (handleReset sampleBaseState).simulationResult = none ∧
    (handleReset sampleBaseState).attempts = 3 := by
  have h := (claim_C9 sampleBaseState).1 sampleQuestion rfl
  exact ⟨h.1, h.2.1, h.2.2.1⟩

/-! ## Properties of the decoration scan -/

theorem blanksGo_congr : ∀ (n m : Nat) (l : List Char) (i : Nat),
    l.length ≤ n → l.length ≤ m → blanksGo n l i = blanksGo m l i := by
  intro n
  induction n with
  | zero =>
    intro m l i hn _
    have hl : l = [] := List.length_eq_zero.mp (Nat.le_zero.mp hn)
    subst hl
    cases m <;> rfl
  | succ n ih =>
    intro m l i hn hm
    cases l with
    | nil => cases m <;> rfl
    | cons c rest =>
      cases m with
      | zero => simp at hm
      | succ m =>
        show (if c = '_' ∧ rest.take 3 = ['_', '_', '_'] then
                i :: blanksGo n (rest.drop 3) (i + 4)
              else blanksGo n rest (i + 1)) =
             (if c = '_' ∧ rest.take 3 = ['_', '_', '_'] then
                i :: blanksGo m (rest.drop 3) (i + 4)
              else blanksGo m rest (i + 1))
        simp only [List.length_cons] at hn hm
        by_cases hc : c = '_' ∧ rest.take 3 = ['_', '_', '_']
        · rw [if_pos hc, if_pos hc,
            ih m (rest.drop 3) (i + 4) (by simp [List.length_drop]; omega)
              (by simp [List.length_drop]; omega)]
        · rw [if_neg hc, if_neg hc, ih m rest (i + 1) (by omega) (by omega)]

theorem blankStarts_eq (code : List Char) : blankStarts code = blanksRun code 0 := rfl

theorem blanksRun_nil (i : Nat) : blanksRun [] i = [] := rfl

theorem blanksRun_cons_hit {c : Char} {rest : List Char} {i : Nat}
    (h : c = '_' ∧ rest.take 3 = ['_', '_', '_']) :
    blanksRun (c :: rest) i = i :: blanksRun (rest.drop 3) (i + 4) := by
  show (if c = '_' ∧ rest.take 3 = ['_', '_', '_'] then
          i :: blanksGo rest.length (rest.drop 3) (i + 4)
        else blanksGo rest.length rest (i + 1)) = _
  rw [if_pos h,
    blanksGo_congr rest.length (rest.drop 3).length (rest.drop 3) (i + 4)
      (by simp [List.length_drop]) le_rfl]
  rfl

theorem blanksRun_cons_miss {c : Char} {rest : List Char} {i : Nat}
    (h : ¬(c = '_' ∧ rest.take 3 = ['_', '_', '_'])) :
    blanksRun (c :: rest) i = blanksRun rest (i + 1) := by
  show (if c = '_' ∧ rest.take 3 = ['_', '_', '_'] then
          i :: blanksGo rest.length (rest.drop 3) (i + 4)
        else blanksGo rest.length rest (i + 1)) = _
  rw [if_neg h]
  rfl

theorem blanksRun_sound : ∀ (n : Nat) (l : List Char) (i : Nat), l.length ≤ n →
    ∀ p ∈ blanksRun l i, i ≤ p ∧ (l.drop (p - i)).take 4 = ['_', '_', '_', '_'] := by
  intro n
  induction n with
  | zero =>
    intro l i hn p hp
    have hl : l = [] := List.length_eq_zero.mp (Nat.le_zero.mp hn)
    subst hl
    simp [blanksRun_nil] at hp
  | succ n ih =>
    intro l i hn p hp
    cases l with
    | nil => simp [blanksRun_nil] at hp
    | cons c rest =>
      simp only [List.length_cons] at hn
      by_cases hc : c = '_' ∧ rest.take 3 = ['_', '_', '_']
      · rw [blanksRun_cons_hit hc] at hp
        rcases List.mem_cons.mp hp with hp | hp
        · subst hp
          refine ⟨le_rfl, ?_⟩
          simp only [Nat.sub_self, List.drop_zero]
          show (c :: rest).take (3 + 1) = _
          rw [List.take_succ_cons, hc.1, hc.2]
        · obtain ⟨hge, htake⟩ := ih (rest.drop 3) (i + 4)
            (by simp [List.length_drop]; omega) p hp
          refine ⟨by omega, ?_⟩
          rw [List.drop_drop] at htake
          have harith : 3 + (p - (i + 4)) = p - i - 1 := by omega
          rw [harith] at htake
          rw [show p - i = (p - i - 1) + 1 by omega, List.drop_succ_cons]
          exact htake
      · rw [blanksRun_cons_miss hc] at hp
        obtain ⟨hge, htake⟩ := ih rest (i + 1) (by omega) p hp
        refine ⟨by omega, ?_⟩
        rw [show p - i = (p - (i + 1)) + 1 by omega, List.drop_succ_cons]
        exact htake

theorem blanksRun_chain : ∀ (n : Nat) (l : List Char) (i : Nat), l.length ≤ n →
    List.Chain' (fun p q => p + 4 ≤ q) (blanksRun l i) := by
  intro n
  induction n with
  | zero =>
    intro l i hn
    have hl : l = [] := List.length_eq_zero.mp (Nat.le_zero.mp hn)
    subst hl
    simp [blanksRun_nil]
  | succ n ih =>
    intro l i hn
    cases l with
    | nil => simp [blanksRun_nil]
    | cons c rest =>
      simp only [List.length_cons] at hn
      by_cases hc : c = '_' ∧ rest.take 3 = ['_', '_', '_']
      · rw [blanksRun_cons_hit hc]
        rw [List.chain'_cons']
        refine ⟨?_, ih (rest.drop 3) (i + 4) (by simp [List.length_drop]; omega)⟩
        intro y hy
        have hmem : y ∈ blanksRun (rest.drop 3) (i + 4) := List.mem_of_mem_head? hy
        exact (blanksRun_sound n (rest.drop 3) (i + 4)
          (by simp [List.length_drop]; omega) y hmem).1
      · rw [blanksRun_cons_miss hc]
        exact ih rest (i + 1) (by omega)

theorem blanksRun_complete : ∀ (n : Nat) (l : List Char) (i q : Nat), l.length ≤ n →
    (l.drop q).take 4 = ['_', '_', '_', '_'] →
    ∃ p ∈ blanksRun l i, p ≤ i + q ∧ i + q < p + 4 := by
  intro n
  induction n with
  | zero =>
    intro l i q hn hocc
    have hl : l = [] := List.length_eq_zero.mp (Nat.le_zero.mp hn)
    subst hl
    simp at hocc
  | succ n ih =>
    intro l i q hn hocc
    cases l with
    | nil => simp at hocc
    | cons c rest =>
      simp only [List.length_cons] at hn
      by_cases hc : c = '_' ∧ rest.take 3 = ['_', '_', '_']
      · by_cases hq : q ≤ 3
        · refine ⟨i, ?_, by omega, by omega⟩
          rw [blanksRun_cons_hit hc]
          exact List.mem_cons_self i _
        · have hq4 : 4 ≤ q := by omega
          have hocc2 : ((rest.drop 3).drop (q - 4)).take 4 = ['_', '_', '_', '_'] := by
            rw [List.drop_drop, show 3 + (q - 4) = q - 1 by omega]
            rw [show q = (q - 1) + 1 by omega, List.drop_succ_cons] at hocc
            exact hocc
          obtain ⟨p, hmem, hle, hlt⟩ := ih (rest.drop 3) (i + 4) (q - 4)
            (by simp [List.length_drop]; omega) hocc2
          refine ⟨p, ?_, by omega, by omega⟩
          rw [blanksRun_cons_hit hc]
          exact List.mem_cons_of_mem i hmem
      · cases q with
        | zero =>
          simp only [List.drop_zero] at hocc
          rw [show (4 : Nat) = 3 + 1 from rfl, List.take_succ_cons] at hocc
          injection hocc with h1 h2
          exact absurd ⟨h1, h2⟩ hc
        | succ q' =>
          rw [List.drop_succ_cons] at hocc
          obtain ⟨p, hmem, hle, hlt⟩ := ih rest (i + 1) q' (by omega) hocc
          refine ⟨p, ?_, by omega, by omega⟩
          rw [blanksRun_cons_miss hc]
          exact hmem

/-- Claim C6: for every non-empty editor content, `updateDecorations`
replaces the previously applied decorations with exactly one decoration
per non-overlapping occurrence of four consecutive underscores — each
decoration spans exactly its occurrence and carries the blank-highlight
styling and hover message, every occurrence of `____` overlaps exactly
one chosen decoration, and the result does not depend on the previous
decorations; for the empty string the function returns without changing
the existing decorations. -/
theorem claim_C6 (code : List Char) (old : List Decoration) :
    (code = [] → updateDecorations code old = old) ∧
    (code ≠ [] →
      updateDecorations code old = (blankStarts code).map blankDecoration ∧
      (∀ old', updateDecorations code old' = updateDecorations code old) ∧
      (∀ p ∈ blankStarts code, (code.drop p).take 4 = ['_', '_', '_', '_']) ∧
      List.Chain' (fun p q => p + 4 ≤ q) (blankStarts code) ∧
      (∀ q, (code.drop q).take 4 = ['_', '_', '_', '_'] →
        ∃ p ∈ blankStarts code, p ≤ q ∧ q < p + 4) ∧
      (∀ d ∈ updateDecorations code old,
        d.endIndex = d.startIndex + 4 ∧ d.isWholeLine = false ∧
        d.inlineClassName = "blank-highlight" ∧
        d.afterContentClassName = "blank-badge" ∧
        d.hoverMessage = "**Action Required**: Replace `____` with the correct code.")) := by
  constructor
  · intro h
    simp [updateDecorations, h]
  · intro h
    have hupd : updateDecorations code old = (blankStarts code).map blankDecoration := by
      simp [updateDecorations, h]
    refine ⟨hupd, ?_, ?_, ?_, ?_, ?_⟩
    · intro old'
      simp [updateDecorations, h]
    · intro p hp
      have := blanksRun_sound code.length code 0 le_rfl p (by rwa [← blankStarts_eq])
      simpa using this.2
    · rw [blankStarts_eq]
      exact blanksRun_chain code.length code 0 le_rfl
    · intro q hq
      obtain ⟨p, hmem, hle, hlt⟩ := blanksRun_complete code.length code 0 q le_rfl hq
      exact ⟨p, by rwa [blankStarts_eq], by omega, by omega⟩
    · intro d hd
      rw [hupd] at hd
      obtain ⟨p, -, hp⟩ := List.mem_map.mp hd
      subst hp
      exact ⟨rfl, rfl, rfl, rfl, rfl⟩

theorem claim_C6_witness :
    updateDecorations ("a____b".data) [blankDecoration 9] = [blankDecoration 1] ∧
    updateDecorations [] [blankDecoration 9] = [blankDecoration 9] := by
  constructor
  · have h := ((claim_C6 ("a____b".data) [blankDecoration 9]).2 (by decide)).1
    rw [h]
    decide
  · exact (claim_C6 [] [blankDecoration 9]).1 rfl

end JavaMaster

